import Mathlib

/-!
# Verification of the PyGMIN double-ended connect core

Shallow embedding of `pygmin/landscape/connect_min.py`: the `DistanceGraph`
class (planning graph over known minima) and the `DoubleEndedConnect` class
(the orchestrator), together with proofs about the claims of the
natural-language specification.

Modelling conventions:
* A `Minimum` is identified by its opaque id (`_id`); equality of minima is
  identity equality, so a minimum is embedded as its `Nat` id.
* Python floats are embedded as exact rationals `ℚ`; the literals `1e-10`,
  `1e-6`, `1e100` of the source become exact rational constants.  None of the
  verified control flow depends on rounding.
* The `networkx` undirected graph used for `Gdist` is embedded as a list of
  weighted edges in insertion order; each edge keeps the orientation under
  which it was first inserted, which is the orientation `edges()` /
  `get_edge_attributes` report.  `add_edge` on an existing (unordered) edge
  updates its weight in place.
* External collaborators (the `mindist` alignment routine, the NEB path
  optimizer and the transition-state refinement pipeline) are inputs of the
  embedded functions: a pure distance oracle and an outcome oracle.  Calls to
  them are counted by instrumentation fields that do not influence control
  flow.
* The class `pygmin.landscape.Graph` (the Connectivity Graph), the database
  merge and the helper `DoubleEndedConnect._addMinimum` are not part of the
  provided sources; they are modelled from the spec where marked.
-/

namespace PG

/-- A minimum, embedded as its opaque id. -/
abbrev MinId := Nat

/-- Weights and distances (Python floats embedded as exact rationals). -/
abbrev W := ℚ

/-- The literal `1e-10` of the source (zero-weight threshold), written in a
kernel-computable form; `eps10_eq` below states the familiar value. -/
def eps10 : W := mkRat 1 10000000000

/-- The literal `1e-6` of the source (`_getNextPair`'s print threshold). -/
def eps6 : W := mkRat 1 1000000

/-- The literal `1e100` of the source (`_getNextPair`'s initial `weightmin`),
written as an explicit numeral; `wBig_eq` below states the familiar value. -/
def wBig : W :=
  10000000000000000000000000000000000000000000000000000000000000000000000000000000000000000000000000000

/-! ## The networkx undirected weighted graph (`Gdist`) -/

/-- One undirected edge of the planning graph, stored with the orientation of
its first insertion (the orientation `networkx` reports back). -/
structure NXEdge where
  a : MinId
  b : MinId
  w : W
deriving DecidableEq, Repr

/-- Whether the stored edge `e` is the unordered pair `{u, v}`. -/
def NXEdge.isPair (e : NXEdge) (u v : MinId) : Bool :=
  (e.a = u ∧ e.b = v) ∨ (e.a = v ∧ e.b = u)

/-- The undirected weighted graph `self.Gdist` (a `networkx.Graph`). -/
structure NXGraph where
  nodes : List MinId
  edges : List NXEdge
deriving DecidableEq, Repr

/-- `networkx` edge lookup: the weight of the edge `{u, v}` if present. -/
def NXGraph.findEdge (g : NXGraph) (u v : MinId) : Option W :=
  match g.edges.find? (fun e => e.isPair u v) with
  | some e => some e.w
  | none => none

/-- `has_node`. -/
def NXGraph.has_node (g : NXGraph) (u : MinId) : Bool := u ∈ g.nodes

/-- Append a node if it is not already present (what `add_edge` does to the
node dict of a `networkx` graph). -/
def NXGraph.ensureNode (g : NXGraph) (u : MinId) : NXGraph :=
  if u ∈ g.nodes then g else { g with nodes := g.nodes ++ [u] }

/-- `add_edge(u, v, weight := w)`: update the weight in place if the unordered
edge exists (keeping the stored orientation), else append it with orientation
`(u, v)`; endpoints become nodes. -/
def NXGraph.add_edge (g : NXGraph) (u v : MinId) (w : W) : NXGraph :=
  if (g.findEdge u v).isSome then
    { nodes := ((g.ensureNode u).ensureNode v).nodes,
      edges := g.edges.map (fun e => if e.isPair u v then { e with w := w } else e) }
  else
    { nodes := ((g.ensureNode u).ensureNode v).nodes,
      edges := g.edges ++ [⟨u, v, w⟩] }

/-- `remove_edge(u, v)`, tolerating absence (the `try/except` of
`DistanceGraph.removeEdge`). -/
def NXGraph.remove_edge (g : NXGraph) (u v : MinId) : NXGraph :=
  { g with edges := g.edges.filter (fun e => ¬ e.isPair u v) }

/-- `add_node`. -/
def NXGraph.add_node (g : NXGraph) (u : MinId) : NXGraph := g.ensureNode u

/-- `nx.get_edge_attributes(G, "weight")`: the weight dict keyed by the stored
orientation of each edge. -/
def getEdgeAttributes (g : NXGraph) : List ((MinId × MinId) × W) :=
  g.edges.map (fun e => ((e.a, e.b), e.w))

/-- Exact-key lookup in a weight dict (`dict.get`). -/
def assocW (l : List ((MinId × MinId) × W)) (k : MinId × MinId) : Option W :=
  match l.find? (fun p => p.1 = k) with
  | some p => some p.2
  | none => none

/-- The list of stored (oriented) endpoint pairs of the edges of `g`. -/
def pairsOf (g : NXGraph) : List (MinId × MinId) :=
  g.edges.map (fun e => (e.a, e.b))

/-- Whether two oriented pairs name the same unordered pair. -/
def pairMatch (p q : MinId × MinId) : Prop :=
  (q.1 = p.1 ∧ q.2 = p.2) ∨ (q.1 = p.2 ∧ q.2 = p.1)

instance (p q : MinId × MinId) : Decidable (pairMatch p q) := by
  unfold pairMatch; infer_instance

/-- The well-formedness invariant of `Gdist`: no unordered pair is stored
twice (a `networkx` graph cannot hold parallel edges). -/
def NXGraph.edgesOk (g : NXGraph) : Prop :=
  (pairsOf g).Pairwise (fun p q => ¬ pairMatch p q)

instance (g : NXGraph) : Decidable g.edgesOk := by
  unfold NXGraph.edgesOk; infer_instance

/-! ## The Connectivity Graph

Modelled from the spec: the class `pygmin.landscape.Graph` wrapping the
database is not part of the provided sources.  Per the spec it is an
undirected graph whose nodes are minima and whose edges are transition
states, and `areConnected(u, v)` answers whether `u` and `v` are reachable
from one another via any chain of edges. -/

/-- Modelled from the spec: the Connectivity Graph (`pygmin.landscape.Graph`),
as the list of unordered transition-state edges. -/
structure ConnGraph where
  edgesC : List (MinId × MinId)
deriving DecidableEq, Repr

/-- One round of neighbourhood expansion of a node set. -/
def ConnGraph.stepC (g : ConnGraph) (s : List MinId) : List MinId :=
  (s ++ g.edgesC.filterMap (fun e => if e.1 ∈ s then some e.2 else none)
     ++ g.edgesC.filterMap (fun e => if e.2 ∈ s then some e.1 else none)).dedup

/-- Iterated expansion. -/
def ConnGraph.closure (g : ConnGraph) : Nat → List MinId → List MinId
  | 0, s => s
  | n + 1, s => g.closure n (g.stepC s)

/-- Modelled from the spec: `Graph.areConnected(u, v)` — whether `u` and `v`
are linked by some chain of transition-state edges (a symmetric notion on an
undirected graph, here written symmetrically; `u` is always connected to
itself). -/
def ConnGraph.areConnected (g : ConnGraph) (u v : MinId) : Bool :=
  u = v ∨ v ∈ g.closure (2 * g.edgesC.length + 2) [u]
    ∨ u ∈ g.closure (2 * g.edgesC.length + 2) [v]

/-- Modelled from the spec: the effect on connectivity of
`database.mergeMinima(keep, remove)` followed by rebuilding the Graph — every
transition state attached to `remove` is re-pointed to `keep`, and a
transition state that collapses onto a single minimum disappears. -/
def ConnGraph.mergeNodes (g : ConnGraph) (keep remove : MinId) : ConnGraph :=
  ⟨(g.edgesC.map (fun e =>
      (if e.1 = remove then keep else e.1, if e.2 = remove then keep else e.2))).filter
    (fun e => ¬ (e.1 = e.2))⟩

/-! ## `DistanceGraph` state and operations -/

/-- The mutable state of a `DistanceGraph`: the planning graph `Gdist`, the
distance cache `distance_map`, the database's distance table (written by
`database.setDistance`) and an instrumentation counter of `mindist`
invocations. -/
structure DG where
  Gdist : NXGraph
  distance_map : List ((MinId × MinId) × W)
  dbDist : List ((MinId × MinId) × W)
  ncalls : Nat
deriving DecidableEq, Repr

/-- Exact-key insertion/update in an assoc list (a Python dict write). -/
def insertW (l : List ((MinId × MinId) × W)) (k : MinId × MinId) (v : W) :
    List ((MinId × MinId) × W) :=
  if (assocW l k).isSome then l.map (fun p => if p.1 = k then (k, v) else p)
  else l ++ [(k, v)]

/-- `DistanceGraph.distToWeight`: `dist ** 2`. -/
def distToWeight (d : W) : W := d ^ 2

/-- `DistanceGraph._setDist`: write the distance to the database and to the
cache, keyed by the ordered pair `(min1, min2)`. -/
def DG._setDist (s : DG) (m1 m2 : MinId) (d : W) : DG :=
  { s with dbDist := insertW s.dbDist (m1, m2) d,
           distance_map := insertW s.distance_map (m1, m2) d }

/-- `DistanceGraph.getDist`: try the cache under both orderings, else invoke
the external alignment routine `md`, cache the result and return it. -/
def DG.getDist (md : MinId → MinId → W) (s : DG) (m1 m2 : MinId) : W × DG :=
  match assocW s.distance_map (m1, m2) with
  | some d => (d, s)
  | none =>
    match assocW s.distance_map (m2, m1) with
    | some d => (d, s)
    | none =>
      let d := md m1 m2
      (d, { s._setDist m1 m2 d with ncalls := s.ncalls + 1 })

/-- The distance `getDist` would return, without the state change (used to
phrase hypotheses about computed distances). -/
def DG.peek (md : MinId → MinId → W) (s : DG) (m1 m2 : MinId) : W :=
  match assocW s.distance_map (m1, m2) with
  | some d => d
  | none =>
    match assocW s.distance_map (m2, m1) with
    | some d => d
    | none => md m1 m2

/-- `DistanceGraph.setTransitionStateConnection`: force the edge weight of
`{min1, min2}` to zero. -/
def DG.setTSC (s : DG) (m1 m2 : MinId) : DG :=
  { s with Gdist := s.Gdist.add_edge m1 m2 0 }

/-- `DistanceGraph.removeEdge`. -/
def DG.removeEdge (s : DG) (m1 m2 : MinId) : DG :=
  { s with Gdist := s.Gdist.remove_edge m1 m2 }

/-- `DistanceGraph._addEdge`: skip identical endpoints, else weight the new
edge by the squared distance and zero it when the pair is already connected
in the Connectivity Graph. -/
def DG._addEdge (md : MinId → MinId → W) (conn : ConnGraph) (s : DG) (m1 m2 : MinId) : DG :=
  if m1 = m2 then s
  else
    let (d, s) := s.getDist md m1 m2
    let s := { s with Gdist := s.Gdist.add_edge m1 m2 (distToWeight d) }
    if conn.areConnected m1 m2 then s.setTSC m1 m2 else s

/-- `DistanceGraph.addMinimum`: if absent, add the node and an edge to every
other node. -/
def DG.addMinimum (md : MinId → MinId → W) (conn : ConnGraph) (s : DG) (m : MinId) : DG :=
  if s.Gdist.has_node m then s
  else
    let s := { s with Gdist := s.Gdist.add_node m }
    s.Gdist.nodes.foldl (fun s m2 => s._addEdge md conn m m2) s

/-- One loop iteration of `DistanceGraph.checkGraph` for the snapshot edge
`e`: repair a connected pair carrying nonzero weight to weight zero, and a
zero-weight edge of an unconnected pair to its recomputed squared distance. -/
def DG.checkStep (md : MinId → MinId → W) (conn : ConnGraph) (e : NXEdge) (s : DG) : DG :=
  if conn.areConnected e.a e.b ∧ ¬ (e.w < eps10) then s.setTSC e.a e.b
  else if ¬ (conn.areConnected e.a e.b = true) ∧ e.w < eps10 then
    let (d, s) := s.getDist md e.a e.b
    { s with Gdist := s.Gdist.add_edge e.a e.b (distToWeight d) }
  else s

/-- The loop of `DistanceGraph.checkGraph` over the snapshot of edges. -/
def DG.checkGraphGo (md : MinId → MinId → W) (conn : ConnGraph) :
    List NXEdge → DG → DG
  | [], s => s
  | e :: rest, s => DG.checkGraphGo md conn rest (s.checkStep md conn e)

/-- `DistanceGraph.checkGraph`: the weight snapshot is taken once and every
edge is examined against it (the repairs never add or remove edges). -/
def DG.checkGraph (md : MinId → MinId → W) (conn : ConnGraph) (s : DG) : DG :=
  DG.checkGraphGo md conn s.Gdist.edges s

/-- The re-pointed pair `enew` of the rebuild loop of
`DistanceGraph.mergeMinima`: an endpoint equal to `min2` is replaced by
`min1`. -/
def mergeEnew (m1 m2 : MinId) (e : NXEdge) : MinId × MinId :=
  if e.a = m2 ∨ e.b = m2 then (if e.a = m2 then (m1, e.b) else (e.a, m1)) else (e.a, e.b)

/-- The first write of the rebuild loop body: an edge touching neither
minimum is copied over unchanged. -/
def mergeKeep (m1 m2 : MinId) (e : NXEdge) (g : NXGraph) : NXGraph :=
  if ¬ (e.a = m1 ∨ e.b = m1) ∧ ¬ (e.a = m2 ∨ e.b = m2) then g.add_edge e.a e.b e.w else g

/-- One iteration of the rebuild loop of `DistanceGraph.mergeMinima` for the
old edge `e`: the faithful transcription of the loop body, including its use
of the *old* graph's weight dict `wts` both for the `weights[e]` reads and
for the `weights.get(enew)` "don't overwrite a zeroed weight" probe. -/
def DG.mergeStep (wts : List ((MinId × MinId) × W)) (m1 m2 : MinId)
    (e : NXEdge) (g : NXGraph) : NXGraph :=
  if (e.a = m1 ∨ e.b = m1) ∧ (e.a = m2 ∨ e.b = m2) then mergeKeep m1 m2 e g
  else
    match assocW wts (mergeEnew m1 m2 e) with
    | some ew =>
      if ew < eps10 then mergeKeep m1 m2 e g
      else (mergeKeep m1 m2 e g).add_edge (mergeEnew m1 m2 e).1 (mergeEnew m1 m2 e).2 e.w
    | none => (mergeKeep m1 m2 e g).add_edge (mergeEnew m1 m2 e).1 (mergeEnew m1 m2 e).2 e.w

/-- The rebuild loop of `DistanceGraph.mergeMinima`. -/
def DG.mergeGo (wts : List ((MinId × MinId) × W)) (m1 m2 : MinId) :
    List NXEdge → NXGraph → NXGraph
  | [], g => g
  | e :: rest, g => DG.mergeGo wts m1 m2 rest (DG.mergeStep wts m1 m2 e g)

/-- `DistanceGraph.mergeMinima(min1, min2)`: rebuild `Gdist` with `min2`
deleted and its edges re-pointed to `min1`, then (since `self.debug` is
always `True`) run `checkGraph`. -/
def DG.mergeMinima (md : MinId → MinId → W) (conn : ConnGraph) (s : DG) (m1 m2 : MinId) : DG :=
  let wts := getEdgeAttributes s.Gdist
  let newgraph : NXGraph := { nodes := s.Gdist.nodes.filter (fun n => ¬ (n = m2)), edges := [] }
  let newgraph := DG.mergeGo wts m1 m2 s.Gdist.edges newgraph
  let s := { s with Gdist := newgraph }
  s.checkGraph md conn

/-! ## Shortest weighted paths (`nx.shortest_path`)

`nx.shortest_path(G, u, v, weight := "weight")` is external library code; it
is modelled as: enumerate all simple paths from `u` to `v` and return one of
minimum total weight (earliest on ties), raising — here: returning `none` —
exactly when `v` is unreachable from `u`.  Soundness and completeness of the
enumeration against an inductive reachability relation are proved below, so
`none` is returned iff no path exists. -/

/-- Adjacency in `Gdist`. -/
def NXGraph.adj (g : NXGraph) (u v : MinId) : Bool :=
  g.edges.any (fun e => e.isPair u v)

/-- The neighbours of `u`, in edge order. -/
def NXGraph.nbrs (g : NXGraph) (u : MinId) : List MinId :=
  g.edges.filterMap (fun e =>
    if e.a = u then some e.b else if e.b = u then some e.a else none)

/-- All simple paths from `cur` to `tgt` avoiding `vis`, by fuelled DFS. -/
def sps (g : NXGraph) (tgt : MinId) : Nat → MinId → List MinId → List (List MinId)
  | 0, _, _ => []
  | f + 1, cur, vis =>
    if cur = tgt then [[cur]]
    else
      ((g.nbrs cur).filter (fun n => ¬ (n ∈ cur :: vis))).map
        (fun n => (sps g tgt f n (cur :: vis)).map (fun p => cur :: p)) |>.flatten

/-- Total weight of a node list read as a path in `g` (absent edges count 0;
they never occur on enumerated paths). -/
def pathWeight (g : NXGraph) : List MinId → W
  | a :: b :: rest => (g.findEdge a b).getD 0 + pathWeight g (b :: rest)
  | _ => 0

/-- Earliest minimum-weight element of a path list. -/
def argminPath (g : NXGraph) : List (List MinId) → Option (List MinId)
  | [] => none
  | p :: ps =>
    match argminPath g ps with
    | none => some p
    | some q => if pathWeight g q < pathWeight g p then some q else some p

/-- Enough fuel to enumerate every simple path of `g`. -/
def spsFuel (g : NXGraph) : Nat := 2 * g.edges.length + 2

/-- Model of `nx.shortest_path` on `Gdist` (see the section comment). -/
def NXGraph.shortestPath (g : NXGraph) (u v : MinId) : Option (List MinId) :=
  argminPath g (sps g v (spsFuel g) u [])

/-- Reachability in `Gdist` (the notion deciding `networkx`'s
`NetworkXNoPath`). -/
inductive Reach (g : NXGraph) : MinId → MinId → Prop
  | refl (u : MinId) : Reach g u u
  | tail {u v x : MinId} : Reach g u v → g.adj v x = true → Reach g u x

/-- Adjacency as a relation, for chain statements. -/
def adjP (g : NXGraph) (x y : MinId) : Prop := g.adj x y = true

/-- The endpoint occurrences of the edges of `g`; every node on a
non-trivial adjacency chain appears here. -/
def endPts (g : NXGraph) : List MinId :=
  g.edges.map (fun e => e.a) ++ g.edges.map (fun e => e.b)

/-! ## `DoubleEndedConnect` state and operations -/

/-- The outcome of one transition-state refinement
(`findTransitionState` + `minima_from_ts` + registration of the two minima):
`success` and `eigenval` are the fields of the search result; `m1`, `m2` are
the canonical ids of the minima found by stepping off both sides. -/
structure RefineOutcome where
  success : Bool
  eigenval : W
  m1 : MinId
  m2 : MinId

/-- The external collaborators of the orchestrator: the alignment routine
`md`, the NEB (for each pair and repetition, its list of
`(energy, image index)` climbing images) and the refinement pipeline (for
each pair, repetition and image index, the outcome). -/
structure Oracles where
  md : MinId → MinId → W
  climb : MinId → MinId → Nat → List (W × Nat)
  refine : MinId → MinId → Nat → Nat → RefineOutcome

/-- The mutable state of a `DoubleEndedConnect`: the two targets, the
Connectivity Graph, the `DistanceGraph` state, the `pairsNEB` dict (as the
list of its keys), the merge configuration, and instrumentation — the log of
`database.mergeMinima` calls, the number of NEB runs and the number of
`_localConnect` invocations. -/
structure DEC where
  minstart : MinId
  minend : MinId
  graph : ConnGraph
  dgs : DG
  pairsNEB : List (MinId × MinId)
  merge_minima : Bool
  max_dist_merge : W
  NEBattempts : Nat
  nrefine_max : Nat
  dbMergeCalls : List (MinId × MinId)
  nNEB : Nat
  nLC : Nat

/-- `DoubleEndedConnect.getDist` (delegates to the distance graph). -/
def DEC.getDist (md : MinId → MinId → W) (s : DEC) (m1 m2 : MinId) : W × DEC :=
  let (d, dgs) := s.dgs.getDist md m1 m2
  (d, { s with dgs := dgs })

/-- `DoubleEndedConnect.mergeMinima(min1, min2)`: order by id so the smaller
id survives, abort when the pair is exactly the two targets or too far apart,
swap so a target is never deleted, then perform the database merge, rebuild
the Connectivity Graph and merge the distance graph. -/
def DEC.mergeMinima (md : MinId → MinId → W) (s : DEC) (a b : MinId) : DEC :=
  let (m1, m2) := if b < a then (b, a) else (a, b)
  let (dist, s) := s.getDist md m1 m2
  if (m1 = s.minstart ∧ m2 = s.minend) ∨ (m2 = s.minstart ∧ m1 = s.minend) then s
  else
    let (m1, m2) := if m2 = s.minstart ∨ m2 = s.minend then (m2, m1) else (m1, m2)
    if s.max_dist_merge < dist then s
    else
      let s := { s with dbMergeCalls := s.dbMergeCalls ++ [(m1, m2)] }
      let graph := s.graph.mergeNodes m1 m2
      let s := { s with graph := graph }
      { s with dgs := s.dgs.mergeMinima md graph m1 m2 }

/-- Modelled from the spec: `DoubleEndedConnect._addMinimum` is referenced by
`_refineTS` but absent from the provided sources; per the spec it registers
the (already canonical) minimum with the Connectivity Graph and the distance
graph.  An isolated node does not change connectivity, so only the distance
graph state changes. -/
def DEC.addMinimum (md : MinId → MinId → W) (s : DEC) (m : MinId) : DEC :=
  { s with dgs := s.dgs.addMinimum md s.graph m }

/-- `DoubleEndedConnect._refineTS` on the outcome `o` of the external search:
reject failed searches, non-negative lowest eigenvalues and saddles whose two
sides fall into the same minimum; otherwise add the transition state to the
Connectivity Graph (modelled from the spec: `graph.addTransitionState` makes
`m1`–`m2` an edge), zero the distance-graph edge and run the debug
`checkGraph`. -/
def DEC.refineTS (md : MinId → MinId → W) (s : DEC) (o : RefineOutcome) : Bool × DEC :=
  if o.success = false then (false, s)
  else if 0 ≤ o.eigenval then (false, s)
  else
    let s := s.addMinimum md o.m1
    let s := s.addMinimum md o.m2
    if o.m1 = o.m2 then (false, s)
    else
      let graph : ConnGraph := ⟨s.graph.edgesC ++ [(o.m1, o.m2)]⟩
      let s := { s with graph := graph }
      let s := { s with dgs := s.dgs.setTSC o.m1 o.m2 }
      (true, { s with dgs := s.dgs.checkGraph md graph })

/-- Descending lexicographic order on `(energy, index)` pairs — the order of
`sorted(climbing_images, reverse=True)`. -/
def ciGe (x y : W × Nat) : Bool := y.1 < x.1 ∨ (y.1 = x.1 ∧ y.2 ≤ x.2)

/-- Insertion into a descending-sorted list. -/
def ciInsert (x : W × Nat) : List (W × Nat) → List (W × Nat)
  | [] => [x]
  | y :: ys => if ciGe x y then x :: y :: ys else y :: ciInsert x ys

/-- `sorted(climbing_images, reverse=True)`. -/
def ciSort : List (W × Nat) → List (W × Nat)
  | [] => []
  | x :: xs => ciInsert x (ciSort xs)

/-- The refinement loop of `_localConnect`: refine each of the selected
climbing images, or-ing the successes. -/
def refineLoop (O : Oracles) (m1 m2 : MinId) (rep : Nat) :
    List (W × Nat) → Bool → DEC → Bool × DEC
  | [], succ, s => (succ, s)
  | ci :: rest, succ, s =>
    let (ts_success, s) := s.refineTS O.md (O.refine m1 m2 rep ci.2)
    refineLoop O m1 m2 rep rest (succ || ts_success) s

/-- `DoubleEndedConnect._doNEB`: align the endpoints (one direct `mindist`
call), run the NEB and return its climbing images.  The image/iteration
budget computed from the alignment distance only parameterizes the external
optimizer and is absorbed into the oracle. -/
def DEC.doNEB (O : Oracles) (s : DEC) (m1 m2 : MinId) (rep : Nat) :
    List (W × Nat) × DEC :=
  let s := { s with dgs := { s.dgs with ncalls := s.dgs.ncalls + 1 }, nNEB := s.nNEB + 1 }
  (O.climb m1 m2 rep, s)

/-- The already-connected sanity branch of `_localConnect`: print the
distance (a `getDist` cache touch), force the zero-weight edge, run the
debug `checkGraph` and signal success. -/
def DEC.lcConnected (md : MinId → MinId → W) (s : DEC) (m1 m2 : MinId) : Bool × DEC :=
  let (_, s) := s.getDist md m1 m2
  let s := { s with dgs := s.dgs.setTSC m1 m2 }
  (true, { s with dgs := s.dgs.checkGraph md s.graph })

/-- The zero-climbing-images branch of `_localConnect`: print the distance,
optionally merge the pair on the final retry, and signal failure. -/
def DEC.lcZeroClimb (O : Oracles) (s : DEC) (m1 m2 : MinId) (rep : Nat) : Bool × DEC :=
  let (_, s) := s.getDist O.md m1 m2
  if s.merge_minima ∧ rep = s.NEBattempts - 1 then (false, s.mergeMinima O.md m1 m2)
  else (false, s)

/-- The refinement stage of `_localConnect`: sort the climbing images by
energy descending, refine up to `nrefine_max` of them, then remove the
pair's planning edge regardless of the outcome. -/
def DEC.lcRefine (O : Oracles) (s : DEC) (m1 m2 : MinId) (rep : Nat)
    (climbing : List (W × Nat)) : Bool × DEC :=
  let climbing := ciSort climbing
  let nrefine := min s.nrefine_max climbing.length
  let (success, s) := refineLoop O m1 m2 rep (climbing.take nrefine) false s
  (success, { s with dgs := s.dgs.removeEdge m1 m2 })

/-- The NEB stage of `_localConnect`: run the NEB and dispatch on whether it
produced any climbing image. -/
def DEC.lcNEB (O : Oracles) (s : DEC) (m1 m2 : MinId) (rep : Nat) : Bool × DEC :=
  let (climbing, s) := s.doNEB O m1 m2 rep
  if climbing.length = 0 then s.lcZeroClimb O m1 m2 rep
  else s.lcRefine O m1 m2 rep climbing

/-- `DoubleEndedConnect._localConnect(min1, min2, repetition)`: the
duplicate-attempt guard, the already-connected sanity check, then the NEB
stage. -/
def DEC.localConnect (O : Oracles) (s : DEC) (m1 m2 : MinId) (rep : Nat) : Bool × DEC :=
  let s := { s with nLC := s.nLC + 1 }
  if (m1, m2) ∈ s.pairsNEB ∧ rep = 0 then
    (true, { s with dgs := s.dgs.removeEdge m1 m2 })
  else
    let s := { s with pairsNEB := s.pairsNEB ++ [(m1, m2), (m2, m1)] }
    if s.graph.areConnected m1 m2 then s.lcConnected O.md m1 m2
    else s.lcNEB O m1 m2 rep

/-- The weight dict lookup of `_getNextPair` for a consecutive pair: try the
pair as ordered, then reversed. -/
def wOf (wts : List ((MinId × MinId) × W)) (p : MinId × MinId) : Option W :=
  (assocW wts p).orElse (fun _ => assocW wts (p.2, p.1))

/-- The scan of `_getNextPair` over the consecutive pairs of the returned
path: look the weight up in the snapshot dict under both orderings, print the
distance (whose computation touches the cache when the weight exceeds
`1e-6`), and keep the first pair realizing the smallest weight above
`1e-10`. -/
def scanGo (md : MinId → MinId → W) (wts : List ((MinId × MinId) × W)) :
    List MinId → MinId → W → Option (MinId × MinId) → DG → Option (MinId × MinId) × DG
  | [], _, _, best, s => (best, s)
  | cur :: rest, prev, wmin, best, s =>
    match wOf wts (prev, cur) with
    | some w =>
      let s := if eps6 < w then (s.getDist md prev cur).2 else s
      if eps10 < w ∧ w < wmin then scanGo md wts rest cur w (some (prev, cur)) s
      else scanGo md wts rest cur wmin best s
    | none => scanGo md wts rest cur wmin best s

/-- `DoubleEndedConnect._getNextPair`: shortest weighted path between the two
targets on `Gdist`, then the scan for the smallest positive-weight edge along
it; `none` when no path exists or no pair qualifies. -/
def DEC.getNextPair (md : MinId → MinId → W) (s : DEC) : Option (MinId × MinId) × DEC :=
  match s.dgs.Gdist.shortestPath s.minstart s.minend with
  | none => (none, s)
  | some path =>
    let wts := getEdgeAttributes s.dgs.Gdist
    match path with
    | [] => (none, s)
    | p0 :: prest =>
      let (best, dgs) := scanGo md wts prest p0 wBig none s.dgs
      (best, { s with dgs := dgs })

/-- The inner retry loop of `connect`: up to `NEBattempts` `_localConnect`
attempts on the chosen pair, stopping at the first success. -/
def attemptLoop (O : Oracles) (m1 m2 : MinId) : Nat → Nat → DEC → DEC
  | 0, _, s => s
  | k + 1, rep, s =>
    let (succ, s) := s.localConnect O m1 m2 rep
    if succ then s else attemptLoop O m1 m2 k (rep + 1) s

/-- The iteration loop of `connect`, with the remaining budget as fuel.
Every exit of the Python function — the `return` upon connection, the
`break` upon planning exhaustion and falling off the end of the `for` —
returns `None`, embedded as `none`. -/
def connectLoop (O : Oracles) : Nat → DEC → Option Bool × DEC
  | 0, s => (none, s)
  | fuel + 1, s =>
    if s.graph.areConnected s.minstart s.minend then (none, s)
    else
      match s.getNextPair O.md with
      | (none, s) => (none, s)
      | (some (m1, m2), s) =>
        let s := attemptLoop O m1 m2 s.NEBattempts 0 s
        connectLoop O fuel s

/-- `DoubleEndedConnect.connect(maxiter)`: set `NEBattempts := 2` and run the
main loop. -/
def DEC.connect (O : Oracles) (s : DEC) (maxiter : Nat) : Option Bool × DEC :=
  connectLoop O maxiter { s with NEBattempts := 2 }

/-- The weight `checkGraph` leaves on the snapshot edge `e`, phrased against
the state `s` at the start of the loop: connected pairs carrying weight at
least `1e-10` are zeroed, zero-weight edges of unconnected pairs get the
squared recomputed distance, all other edges are untouched. -/
def repairW (md : MinId → MinId → W) (conn : ConnGraph) (s : DG) (e : NXEdge) : W :=
  if conn.areConnected e.a e.b ∧ ¬ (e.w < eps10) then 0
  else if ¬ (conn.areConnected e.a e.b = true) ∧ e.w < eps10 then
    distToWeight (s.peek md e.a e.b)
  else e.w

/-- The consecutive node pairs of a path, in order. -/
def consecPairs : List MinId → List (MinId × MinId)
  | a :: b :: rest => (a, b) :: consecPairs (b :: rest)
  | _ => []

/-- Coherence of the distance cache: when both orderings of a pair are
present they agree (the cache itself never stores both orderings — `getDist`
only writes a pair it failed to find under either ordering — but the map is
pre-seeded from the database at start-up, so agreement of duplicated rows is
the data-structure invariant this claim lives under). -/
def coherentMap (l : List ((MinId × MinId) × W)) : Prop :=
  ∀ a b d d', assocW l (a, b) = some d → assocW l (b, a) = some d' → d = d'

/-! ## Concrete fixtures (used by witnesses and counterexamples) -/

/-- A constant alignment oracle. -/
def mdC : MinId → MinId → W := fun _ _ => 1

/-- External collaborators that always fail to produce anything. -/
def oC : Oracles := ⟨mdC, fun _ _ _ => [], fun _ _ _ _ => ⟨false, 0, 0, 0⟩⟩

/-- Collaborators whose NEB always produces one climbing image whose
refinement then fails. -/
def oCl : Oracles := ⟨mdC, fun _ _ _ => [(5, 1)], fun _ _ _ _ => ⟨false, 0, 0, 0⟩⟩

/-- A `DoubleEndedConnect` state with the given Connectivity Graph, planning
graph and attempted-pair set, between targets `0` and `1`. -/
def mkDEC (conn : ConnGraph) (g : NXGraph) (pairs : List (MinId × MinId)) : DEC :=
  { minstart := 0, minend := 1, graph := conn,
    dgs := { Gdist := g, distance_map := [], dbDist := [], ncalls := 0 },
    pairsNEB := pairs, merge_minima := false, max_dist_merge := mkRat 1 10,
    NEBattempts := 2, nrefine_max := 100, dbMergeCalls := [], nNEB := 0, nLC := 0 }

/-- Fixture for C1: the two targets are already connected. -/
def sConn : DEC := mkDEC ⟨[(0, 1)]⟩ ⟨[0, 1], [⟨0, 1, 1⟩]⟩ []

/-- Fixture for C2/C5: the pair `(1, 2)` was already attempted and its
planning edge is still present. -/
def sDup : DEC := mkDEC ⟨[]⟩ ⟨[0, 1, 2], [⟨0, 1, 1⟩, ⟨1, 2, 4⟩]⟩ [(1, 2), (2, 1)]

/-- Fixture for C6: the attempted pair `(0, 1)` is already connected in the
Connectivity Graph while its planning edge carries a nonzero weight. -/
def sAC : DEC := mkDEC ⟨[(0, 1)]⟩ ⟨[0, 1], [⟨0, 1, 9⟩]⟩ []

/-- Fixture for C4 (the failing input): `keep = 1`, `remove = 2`, third node
`3`; the edge `(1, 3)` has weight `0` (the pair is connected), the edge
`(2, 3)` has weight `4` and the pair `(1, 2)` has weight `1`. -/
def dgMerge : DG :=
  { Gdist := ⟨[1, 2, 3], [⟨1, 3, 0⟩, ⟨2, 3, 4⟩, ⟨1, 2, 1⟩]⟩,
    distance_map := [], dbDist := [], ncalls := 0 }

/-- The Connectivity Graph for the C4 failing input: `1`–`3` connected. -/
def connMerge : ConnGraph := ⟨[(1, 3)]⟩

/-- Fixture for C7: a connected pair whose planning edge carries the tiny
nonzero weight `5e-11 = 1/20000000000`. -/
def dgTiny : DG :=
  { Gdist := ⟨[1, 2], [⟨1, 2, mkRat 1 20000000000⟩]⟩,
    distance_map := [], dbDist := [], ncalls := 0 }

/-- Fixture for C7's witness: the pair `(1, 2)` is connected and carries
weight `0` (consistent), the pair `(2, 3)` is unconnected yet carries weight
`0` (to be repaired). -/
def dgRep : DG :=
  { Gdist := ⟨[1, 2, 3], [⟨1, 2, 0⟩, ⟨2, 3, 0⟩]⟩,
    distance_map := [], dbDist := [], ncalls := 0 }

/-- The Connectivity Graph for the C7 fixtures: only `1`–`2` connected. -/
def connRep : ConnGraph := ⟨[(1, 2)]⟩

/-- Fixture for C3's witness: targets `0` and `1`, connected in `Gdist` via
`2` with weights `0` and `4`. -/
def sPath : DEC := mkDEC ⟨[(0, 2)]⟩ ⟨[0, 1, 2], [⟨0, 2, 0⟩, ⟨2, 1, 4⟩]⟩ []

/-- Fixture for C9/C10: a mergeable state (all distances are `1`, above
`max_dist_merge = 1/10`, so C10's witness raises the cap). -/
def sMrg : DEC :=
  { mkDEC ⟨[]⟩ ⟨[0, 1, 4, 7], [⟨4, 7, 2⟩]⟩ [] with max_dist_merge := 5 }

/-! ## Basic lemmas about the graph embedding -/

theorem isPair_symm (e : NXEdge) (u v : MinId) : e.isPair u v = e.isPair v u := by
  unfold NXEdge.isPair
  simp only [decide_eq_decide]
  tauto

theorem isPair_self (u v : MinId) (w : W) : NXEdge.isPair ⟨u, v, w⟩ u v = true := by
  unfold NXEdge.isPair
  simp

theorem isPair_setW (e : NXEdge) (u v : MinId) (w : W) :
    NXEdge.isPair { e with w := w } u v = e.isPair u v := rfl

theorem isPair_iff_pairMatch (e : NXEdge) (u v : MinId) :
    e.isPair u v = true ↔ pairMatch (u, v) (e.a, e.b) := by
  unfold NXEdge.isPair pairMatch
  simp

theorem pairMatch_of_both {e : NXEdge} {u v x y : MinId}
    (h1 : e.isPair u v = true) (h2 : e.isPair x y = true) : pairMatch (u, v) (x, y) := by
  rw [isPair_iff_pairMatch] at h1 h2
  unfold pairMatch at *
  rcases h1 with ⟨h1a, h1b⟩ | ⟨h1a, h1b⟩ <;> rcases h2 with ⟨h2a, h2b⟩ | ⟨h2a, h2b⟩ <;>
    simp_all

theorem findEdge_symm (g : NXGraph) (u v : MinId) : g.findEdge u v = g.findEdge v u := by
  unfold NXGraph.findEdge
  rw [show (fun e => e.isPair u v) = (fun e => e.isPair v u) from
    funext fun e => isPair_symm e u v]

theorem ensureNode_edges (g : NXGraph) (x : MinId) : (g.ensureNode x).edges = g.edges := by
  unfold NXGraph.ensureNode
  split <;> rfl

theorem ensureNode_findEdge (g : NXGraph) (x u v : MinId) :
    (g.ensureNode x).findEdge u v = g.findEdge u v := by
  unfold NXGraph.findEdge
  rw [ensureNode_edges]

theorem add_edge_edges (g : NXGraph) (u v : MinId) (w : W) :
    (g.add_edge u v w).edges =
      if (g.findEdge u v).isSome then
        g.edges.map (fun e => if e.isPair u v then { e with w := w } else e)
      else g.edges ++ [⟨u, v, w⟩] := by
  unfold NXGraph.add_edge
  split <;> rfl

theorem findEdge_eq_find? (g : NXGraph) (u v : MinId) :
    g.findEdge u v = (g.edges.find? (fun e => e.isPair u v)).map (fun e => e.w) := by
  unfold NXGraph.findEdge
  cases hfind : g.edges.find? (fun e => e.isPair u v) <;> simp

/-- `add_edge` writes the requested weight on its own unordered pair. -/
theorem findEdge_add_self (g : NXGraph) (u v : MinId) (w : W) :
    (g.add_edge u v w).findEdge u v = some w := by
  have hpf : ((fun e => NXEdge.isPair e u v) ∘
      fun e => if e.isPair u v = true then { e with w := w } else e) =
      (fun e => e.isPair u v) := by
    funext e
    by_cases h : e.isPair u v = true
    · simp [h, isPair_setW]
    · simp [h]
  rw [findEdge_eq_find?, add_edge_edges]
  split
  · rename_i hs
    rw [List.find?_map, hpf]
    rw [findEdge_eq_find?] at hs
    cases hfind : g.edges.find? (fun e => e.isPair u v) with
    | some e =>
      have hp := List.find?_some hfind
      simp [hp]
    | none => rw [hfind] at hs; simp at hs
  · rename_i hs
    rw [List.find?_append]
    rw [findEdge_eq_find?] at hs
    cases hfind : g.edges.find? (fun e => e.isPair u v) with
    | some e => rw [hfind] at hs; simp at hs
    | none => simp [isPair_self]

/-- `add_edge` leaves every other unordered pair untouched. -/
theorem findEdge_add_other (g : NXGraph) (u v x y : MinId) (w : W)
    (h : ¬ pairMatch (u, v) (x, y)) :
    (g.add_edge u v w).findEdge x y = g.findEdge x y := by
  have hux : NXEdge.isPair ⟨u, v, w⟩ x y = false := by
    rw [Bool.eq_false_iff]
    intro hc
    rw [isPair_iff_pairMatch] at hc
    apply h
    unfold pairMatch at *
    tauto
  have hpf : ((fun e => NXEdge.isPair e x y) ∘
      fun e => if e.isPair u v = true then { e with w := w } else e) =
      (fun e => e.isPair x y) := by
    funext e
    by_cases hc : e.isPair u v = true
    · simp [hc, isPair_setW]
    · simp [hc]
  rw [findEdge_eq_find?, add_edge_edges, findEdge_eq_find? g x y]
  split
  · rw [List.find?_map, hpf]
    cases hfind : g.edges.find? (fun e => e.isPair x y) with
    | some e =>
      have hp := List.find?_some hfind
      have hne : e.isPair u v = false := by
        rw [Bool.eq_false_iff]
        intro hc
        exact h (pairMatch_of_both hc hp)
      simp [hne]
    | none => simp
  · rw [List.find?_append]
    cases hfind : g.edges.find? (fun e => e.isPair x y) with
    | some e => simp
    | none => simp [hux]

/-- `remove_edge` removes its unordered pair. -/
theorem findEdge_remove_self (g : NXGraph) (u v : MinId) :
    (g.remove_edge u v).findEdge u v = none := by
  unfold NXGraph.findEdge NXGraph.remove_edge
  simp only [List.find?_filter]
  match hfind : g.edges.find? _ with
  | some e =>
    have hp := List.find?_some hfind
    simp at hp
  | none => simp [hfind]

theorem isPair_own (e : NXEdge) : e.isPair e.a e.b = true := by
  unfold NXEdge.isPair
  simp

theorem pairMatch_symm {p q : MinId × MinId} (h : pairMatch p q) : pairMatch q p := by
  unfold pairMatch at *
  tauto

theorem pairMatch_cases {x y u v : MinId} (h : pairMatch (x, y) (u, v)) :
    (u = x ∧ v = y) ∨ (u = y ∧ v = x) := by
  unfold pairMatch at h
  simpa using h

theorem pairMatch_intro_left {x y u v : MinId} (h1 : u = x) (h2 : v = y) :
    pairMatch (x, y) (u, v) := by
  unfold pairMatch
  simp [h1, h2]

theorem pairMatch_trans {r p q : MinId × MinId}
    (h1 : pairMatch r p) (h2 : pairMatch r q) : pairMatch p q := by
  unfold pairMatch at *
  rcases h1 with ⟨a1, b1⟩ | ⟨a1, b1⟩ <;> rcases h2 with ⟨a2, b2⟩ | ⟨a2, b2⟩ <;>
    simp_all

/-- The sanity check that `eps10` denotes `1e-10`. -/
theorem eps10_eq : eps10 = 1 / 10000000000 := by norm_num [eps10]

/-- The sanity check that `eps6` denotes `1e-6`. -/
theorem eps6_eq : eps6 = 1 / 1000000 := by norm_num [eps6]

/-- The sanity check that `wBig` denotes `1e100`. -/
theorem wBig_eq : wBig = 10 ^ 100 := by norm_num [wBig]

theorem edgesOk_pairwise {g : NXGraph} (hok : g.edgesOk) :
    g.edges.Pairwise (fun e e' => ¬ pairMatch (e.a, e.b) (e'.a, e'.b)) := by
  unfold NXGraph.edgesOk pairsOf at hok
  rwa [List.pairwise_map] at hok

theorem find?_own (es : List NXEdge)
    (hpw : es.Pairwise (fun e e' => ¬ pairMatch (e.a, e.b) (e'.a, e'.b)))
    (e : NXEdge) (he : e ∈ es) : es.find? (fun e' => e'.isPair e.a e.b) = some e := by
  induction es with
  | nil => simp at he
  | cons p es ih =>
    rcases List.mem_cons.mp he with rfl | hmem
    · simp [isPair_own]
    · have hhead := (List.pairwise_cons.mp hpw).1 e hmem
      have hnp : p.isPair e.a e.b = false := by
        rw [Bool.eq_false_iff]
        intro hc
        exact hhead (pairMatch_symm ((isPair_iff_pairMatch p e.a e.b).mp hc))
      rw [List.find?_cons_of_neg _ (by simp [hnp])]
      exact ih (List.pairwise_cons.mp hpw).2 hmem

/-- In a well-formed graph, looking up the pair of one of its own edges
returns that edge's weight. -/
theorem findEdge_own {g : NXGraph} (hok : g.edgesOk) {e : NXEdge} (he : e ∈ g.edges) :
    g.findEdge e.a e.b = some e.w := by
  rw [findEdge_eq_find?, find?_own g.edges (edgesOk_pairwise hok) e he]
  rfl

theorem assocW_eq_find? (l : List ((MinId × MinId) × W)) (k : MinId × MinId) :
    assocW l k = (l.find? (fun p => p.1 = k)).map (fun p => p.2) := by
  unfold assocW
  cases hfind : l.find? (fun p => p.1 = k) <;> simp

theorem find?_own_key (es : List NXEdge)
    (hpw : es.Pairwise (fun e e' => ¬ pairMatch (e.a, e.b) (e'.a, e'.b)))
    (e : NXEdge) (he : e ∈ es) :
    es.find? (fun e' : NXEdge => decide ((e'.a, e'.b) = (e.a, e.b))) = some e := by
  induction es with
  | nil => simp at he
  | cons p es ih =>
    rcases List.mem_cons.mp he with rfl | hmem
    · rw [List.find?_cons_of_pos _ (by simp)]
    · have hhead := (List.pairwise_cons.mp hpw).1 e hmem
      have hnp : ¬ ((p.a, p.b) = (e.a, e.b)) := by
        intro hc
        apply hhead
        unfold pairMatch
        simp at hc
        tauto
      rw [List.find?_cons_of_neg _ (by simp [hnp])]
      exact ih (List.pairwise_cons.mp hpw).2 hmem

/-- In a well-formed graph, the weight dict holds each edge's weight under
its stored orientation. -/
theorem assocW_attrs_own {g : NXGraph} (hok : g.edgesOk) {e : NXEdge} (he : e ∈ g.edges) :
    assocW (getEdgeAttributes g) (e.a, e.b) = some e.w := by
  rw [assocW_eq_find?]
  unfold getEdgeAttributes
  rw [List.find?_map]
  have hcomp : ((fun p : (MinId × MinId) × W => decide (p.1 = (e.a, e.b))) ∘
      (fun e' : NXEdge => ((e'.a, e'.b), e'.w))) =
      (fun e' : NXEdge => decide ((e'.a, e'.b) = (e.a, e.b))) := by
    funext e'
    rfl
  rw [hcomp, find?_own_key g.edges (edgesOk_pairwise hok) e he]
  rfl

theorem assocW_insert_self (l : List ((MinId × MinId) × W)) (k : MinId × MinId) (v : W) :
    assocW (insertW l k v) k = some v := by
  unfold insertW
  split
  · rename_i h
    rw [assocW_eq_find?] at h ⊢
    rw [List.find?_map]
    have hcomp : ((fun p : (MinId × MinId) × W => decide (p.1 = k)) ∘
        (fun p : (MinId × MinId) × W => if p.1 = k then (k, v) else p)) =
        (fun p : (MinId × MinId) × W => decide (p.1 = k)) := by
      funext p
      by_cases hp : p.1 = k
      · simp [hp]
      · simp [hp]
    rw [hcomp]
    cases hfind : List.find? (fun p : (MinId × MinId) × W => decide (p.1 = k)) l with
    | some p =>
      have hp := List.find?_some hfind
      simp only [decide_eq_true_eq] at hp
      simp [hp]
    | none => rw [hfind] at h; simp at h
  · rename_i h
    rw [assocW_eq_find?] at h ⊢
    rw [List.find?_append]
    cases hfind : List.find? (fun p : (MinId × MinId) × W => decide (p.1 = k)) l with
    | some p => rw [hfind] at h; simp at h
    | none => simp

theorem assocW_insert_other (l : List ((MinId × MinId) × W)) (k : MinId × MinId) (v : W)
    (k' : MinId × MinId) (h : ¬ k' = k) :
    assocW (insertW l k v) k' = assocW l k' := by
  unfold insertW
  split
  · rw [assocW_eq_find?, assocW_eq_find?, List.find?_map]
    have hcomp : ((fun p : (MinId × MinId) × W => decide (p.1 = k')) ∘
        (fun p : (MinId × MinId) × W => if p.1 = k then (k, v) else p)) =
        (fun p : (MinId × MinId) × W => decide (p.1 = k')) := by
      funext p
      by_cases hp : p.1 = k
      · simp [hp]
      · simp [hp]
    rw [hcomp]
    cases hfind : List.find? (fun p : (MinId × MinId) × W => decide (p.1 = k')) l with
    | some p =>
      have hp := List.find?_some hfind
      simp only [decide_eq_true_eq] at hp
      have hpk : ¬ (p.1 = k) := by
        intro hc
        exact h (by rw [← hp, hc])
      simp [hpk]
    | none => simp
  · rw [assocW_eq_find?, assocW_eq_find?, List.find?_append]
    cases hfind : List.find? (fun p : (MinId × MinId) × W => decide (p.1 = k')) l with
    | some p => simp
    | none =>
      have hkk : ¬ (((k, v) : (MinId × MinId) × W).1 = k') := fun hc => h hc.symm
      simp [hkk]

/-! ## Lemmas about `getDist`, `peek` and the Connectivity Graph -/

theorem getDist_fst (md : MinId → MinId → W) (s : DG) (m1 m2 : MinId) :
    (s.getDist md m1 m2).1 = s.peek md m1 m2 := by
  unfold DG.getDist DG.peek
  cases h1 : assocW s.distance_map (m1, m2) with
  | some d => rfl
  | none => cases h2 : assocW s.distance_map (m2, m1) <;> rfl

theorem getDist_Gdist (md : MinId → MinId → W) (s : DG) (m1 m2 : MinId) :
    (s.getDist md m1 m2).2.Gdist = s.Gdist := by
  unfold DG.getDist DG._setDist
  cases h1 : assocW s.distance_map (m1, m2) with
  | some d => rfl
  | none => cases h2 : assocW s.distance_map (m2, m1) <;> rfl

theorem getDist_ncalls (md : MinId → MinId → W) (s : DG) (m1 m2 : MinId) :
    (s.getDist md m1 m2).2.ncalls ≤ s.ncalls + 1 := by
  unfold DG.getDist DG._setDist
  cases h1 : assocW s.distance_map (m1, m2) with
  | some d => exact Nat.le_succ s.ncalls
  | none =>
    cases h2 : assocW s.distance_map (m2, m1) with
    | some d => exact Nat.le_succ s.ncalls
    | none => exact Nat.le_refl _

theorem getDist_distmap_other (md : MinId → MinId → W) (s : DG) (m1 m2 : MinId)
    (q : MinId × MinId) (h : ¬ q = (m1, m2)) :
    assocW (s.getDist md m1 m2).2.distance_map q = assocW s.distance_map q := by
  unfold DG.getDist DG._setDist
  cases h1 : assocW s.distance_map (m1, m2) with
  | some d => rfl
  | none =>
    cases h2 : assocW s.distance_map (m2, m1) with
    | some d => rfl
    | none => exact assocW_insert_other _ _ _ _ h

theorem getDist_peek_other (md md' : MinId → MinId → W) (s : DG) (m1 m2 x y : MinId)
    (h : ¬ pairMatch (m1, m2) (x, y)) :
    (s.getDist md m1 m2).2.peek md' x y = s.peek md' x y := by
  have hxy : ¬ ((x, y) : MinId × MinId) = (m1, m2) := by
    intro hc
    apply h
    unfold pairMatch
    simp at hc
    tauto
  have hyx : ¬ ((y, x) : MinId × MinId) = (m1, m2) := by
    intro hc
    apply h
    unfold pairMatch
    simp at hc
    tauto
  unfold DG.peek
  rw [getDist_distmap_other md s m1 m2 _ hxy, getDist_distmap_other md s m1 m2 _ hyx]

theorem areConnected_symm (g : ConnGraph) (u v : MinId) :
    g.areConnected u v = g.areConnected v u := by
  unfold ConnGraph.areConnected
  simp only [decide_eq_decide]
  constructor
  · rintro (h | h | h)
    · exact Or.inl h.symm
    · exact Or.inr (Or.inr h)
    · exact Or.inr (Or.inl h)
  · rintro (h | h | h)
    · exact Or.inl h.symm
    · exact Or.inr (Or.inr h)
    · exact Or.inr (Or.inl h)

/-! ## Claim C8: the distance cache -/

/-- C8: `getDist(u, v)` returns the cached value under either ordering, and a
pair of calls in either argument order returns the identical value while
invoking the external alignment routine at most once in total: after the
first computation the value is cached and never recomputed. -/
theorem C8_getDist_idempotent (md : MinId → MinId → W) (s : DG) (u v : MinId)
    (hc : coherentMap s.distance_map) :
    ((s.getDist md u v).2.getDist md v u).1 = (s.getDist md u v).1 ∧
    ((s.getDist md u v).2.getDist md u v).1 = (s.getDist md u v).1 ∧
    ((s.getDist md u v).2.getDist md v u).2.ncalls ≤ s.ncalls + 1 ∧
    ((s.getDist md u v).2.getDist md u v).2.ncalls ≤ s.ncalls + 1 := by
  unfold DG.getDist DG._setDist
  cases h1 : assocW s.distance_map (u, v) with
  | some d =>
    simp only
    cases h2 : assocW s.distance_map (v, u) with
    | some d' =>
      have hd : d' = d := hc v u d' d h2 h1
      simp [h1, h2, hd, Nat.le_succ]
    | none => simp [h1, h2, Nat.le_succ]
  | none =>
    cases h2 : assocW s.distance_map (v, u) with
    | some d => simp [h1, h2, Nat.le_succ]
    | none =>
      by_cases huv : u = v
      · subst huv
        rw [h1] at h2
        simp [h1, assocW_insert_self]
      · have hvu : ¬ ((v, u) : MinId × MinId) = (u, v) := by
          intro hcq
          simp at hcq
          exact huv hcq.1.symm
        simp [h1, h2, assocW_insert_other _ _ _ _ hvu, assocW_insert_self]

/-- C8 witness: on an empty cache the two calls agree and make exactly one
alignment call. -/
theorem C8_witness :
    (((⟨⟨[], []⟩, [], [], 0⟩ : DG).getDist mdC 3 4).2.getDist mdC 4 3).1 =
      ((⟨⟨[], []⟩, [], [], 0⟩ : DG).getDist mdC 3 4).1 ∧
    (((⟨⟨[], []⟩, [], [], 0⟩ : DG).getDist mdC 3 4).2.getDist mdC 4 3).2.ncalls ≤ 1 := by
  have h := C8_getDist_idempotent mdC ⟨⟨[], []⟩, [], [], 0⟩ 3 4
    (by intro a b d d' h1 h2; simp [assocW] at h1)
  exact ⟨h.1, h.2.2.1⟩

/-! ## Claims C9 and C10: the orchestrator's merge -/

/-- C9: calling `DoubleEndedConnect.mergeMinima` on the two `connect()`
endpoints, in either argument order, aborts before any mutation: the
Connectivity Graph and the planning graph are unchanged and the persistence
merge is never invoked (the embedded function is total, so no exception
escapes; only the distance cache may gain the endpoints' distance, which the
abort computes before testing). -/
theorem C9_merge_endpoints_noop (md : MinId → MinId → W) (s : DEC) (a b : MinId)
    (h : (a = s.minstart ∧ b = s.minend) ∨ (a = s.minend ∧ b = s.minstart)) :
    (s.mergeMinima md a b).graph = s.graph ∧
    (s.mergeMinima md a b).dgs.Gdist = s.dgs.Gdist ∧
    (s.mergeMinima md a b).dbMergeCalls = s.dbMergeCalls := by
  unfold DEC.mergeMinima DEC.getDist
  by_cases hba : b < a
  · simp only [if_pos hba]
    cases hgd : s.dgs.getDist md b a with
    | mk d dgs =>
      have hG : dgs.Gdist = s.dgs.Gdist := by
        have hx := getDist_Gdist md s.dgs b a
        rw [hgd] at hx
        exact hx
      have hcond : (b = s.minstart ∧ a = s.minend) ∨ (a = s.minstart ∧ b = s.minend) := by
        tauto
      rw [if_pos hcond]
      exact ⟨rfl, hG, rfl⟩
  · simp only [if_neg hba]
    cases hgd : s.dgs.getDist md a b with
    | mk d dgs =>
      have hG : dgs.Gdist = s.dgs.Gdist := by
        have hx := getDist_Gdist md s.dgs a b
        rw [hgd] at hx
        exact hx
      have hcond : (a = s.minstart ∧ b = s.minend) ∨ (b = s.minstart ∧ a = s.minend) := by
        tauto
      rw [if_pos hcond]
      exact ⟨rfl, hG, rfl⟩

/-- C9 witness: merging the endpoints of a concrete state changes nothing. -/
theorem C9_witness :
    (DEC.mergeMinima mdC sMrg 1 0).graph = sMrg.graph ∧
    (DEC.mergeMinima mdC sMrg 1 0).dgs.Gdist = sMrg.dgs.Gdist ∧
    (DEC.mergeMinima mdC sMrg 1 0).dbMergeCalls = sMrg.dbMergeCalls :=
  C9_merge_endpoints_noop mdC sMrg 1 0 (Or.inr (by decide))

/-- C10: whenever `DoubleEndedConnect.mergeMinima` actually performs the
merge (neither abort fires), the persistence merge keeps the smaller-id
minimum — unless the larger-id minimum is one of the two targets, in which
case the arguments are swapped and that target survives. -/
theorem C10_merge_survivor (md : MinId → MinId → W) (s : DEC) (a b : MinId)
    (hep : ¬ (((if b < a then b else a) = s.minstart ∧ (if b < a then a else b) = s.minend) ∨
              ((if b < a then a else b) = s.minstart ∧ (if b < a then b else a) = s.minend)))
    (hd : ¬ (s.max_dist_merge <
              s.dgs.peek md (if b < a then b else a) (if b < a then a else b))) :
    (s.mergeMinima md a b).dbMergeCalls = s.dbMergeCalls ++
      [if (if b < a then a else b) = s.minstart ∨ (if b < a then a else b) = s.minend
        then ((if b < a then a else b), (if b < a then b else a))
        else ((if b < a then b else a), (if b < a then a else b))] := by
  unfold DEC.mergeMinima DEC.getDist
  by_cases hba : b < a
  · simp only [if_pos hba] at hep hd ⊢
    cases hgd : s.dgs.getDist md b a with
    | mk d dgs =>
      have hdv : d = s.dgs.peek md b a := by
        have hx := getDist_fst md s.dgs b a
        rw [hgd] at hx
        exact hx
      rw [if_neg hep]
      by_cases hsw : a = s.minstart ∨ a = s.minend
      · rw [if_pos hsw, if_neg (by rw [hdv]; exact hd)]
      · rw [if_neg hsw, if_neg (by rw [hdv]; exact hd)]
  · simp only [if_neg hba] at hep hd ⊢
    cases hgd : s.dgs.getDist md a b with
    | mk d dgs =>
      have hdv : d = s.dgs.peek md a b := by
        have hx := getDist_fst md s.dgs a b
        rw [hgd] at hx
        exact hx
      rw [if_neg hep]
      by_cases hsw : b = s.minstart ∨ b = s.minend
      · rw [if_pos hsw, if_neg (by rw [hdv]; exact hd)]
      · rw [if_neg hsw, if_neg (by rw [hdv]; exact hd)]

/-- C10 witness: merging `7` and `4` (neither a target, distance `1` below
the cap `5`) keeps the smaller id `4`; with `7` as the end target instead,
`7` survives. -/
theorem C10_witness :
    (DEC.mergeMinima mdC sMrg 7 4).dbMergeCalls = [(4, 7)] ∧
    (DEC.mergeMinima mdC { sMrg with minend := 7 } 7 4).dbMergeCalls = [(7, 4)] := by
  constructor
  · have h := C10_merge_survivor mdC sMrg 7 4 (by decide) (by decide)
    exact h.trans (by decide)
  · have h := C10_merge_survivor mdC { sMrg with minend := 7 } 7 4 (by decide) (by decide)
    exact h.trans (by decide)

/-! ## Claim C2: the duplicate-attempt guard -/

/-- C2 counterexample: at retry index 0 on an already-attempted pair,
`_localConnect` returns `True` — the success signal (the orchestrator's
`local_success`), not a failure signal as the claim states. -/
theorem C2_counterexample :
    (1, 2) ∈ sDup.pairsNEB ∧ (DEC.localConnect oC sDup 1 2 0).1 = true := by decide

/-- C2 (amended): invoked at retry index 0 on a pair recorded in `pairsNEB`,
`_localConnect` aborts at the duplicate-attempt guard: it removes the pair's
planning edge and returns `True` (the success signal, which stops the
orchestrator's retry loop), without running the NEB. -/
theorem C2_duplicate_guard (O : Oracles) (s : DEC) (m1 m2 : MinId)
    (h : (m1, m2) ∈ s.pairsNEB) :
    (s.localConnect O m1 m2 0).1 = true ∧
    (s.localConnect O m1 m2 0).2.dgs.Gdist.findEdge m1 m2 = none ∧
    (s.localConnect O m1 m2 0).2.nNEB = s.nNEB := by
  unfold DEC.localConnect
  rw [if_pos ⟨h, rfl⟩]
  exact ⟨rfl, findEdge_remove_self _ _ _, rfl⟩

/-- C2 witness: the guard at a concrete duplicate pair. -/
theorem C2_witness :
    (DEC.localConnect oC sDup 1 2 0).1 = true ∧
    (DEC.localConnect oC sDup 1 2 0).2.dgs.Gdist.findEdge 1 2 = none ∧
    (DEC.localConnect oC sDup 1 2 0).2.nNEB = sDup.nNEB :=
  C2_duplicate_guard oC sDup 1 2 (by decide)

/-! ## Claim C1: the return value and termination of `connect` -/

theorem connectLoop_none (O : Oracles) :
    ∀ (fuel : Nat) (s : DEC), (connectLoop O fuel s).1 = none := by
  intro fuel
  induction fuel with
  | zero => intro s; rfl
  | succ n ih =>
    intro s
    unfold connectLoop
    by_cases hc : s.graph.areConnected s.minstart s.minend = true
    · rw [if_pos hc]
    · rw [if_neg hc]
      cases hnp : s.getNextPair O.md with
      | mk opt s' =>
        cases opt with
        | none => rfl
        | some p =>
          cases p with
          | mk m1 m2 => exact ih _

/-- C1 counterexample: on a state whose two targets are already connected,
`connect` returns `None` (the Python function has no return value), not the
boolean `True` the claim requires. -/
theorem C1_counterexample :
    sConn.graph.areConnected sConn.minstart sConn.minend = true ∧
    (DEC.connect oC sConn 5).1 = none := by decide

/-- C1 (amended): `connect(maxiter)` always returns `None` — on immediate
connection, on planning exhaustion and on budget exhaustion alike — and when
the two targets are connected at entry (and at least one iteration is
allowed) it returns at the top-of-cycle check, leaving the state untouched
except for setting `NEBattempts`; in particular the Local Connector is never
invoked. -/
theorem C1_connect_returns_none (O : Oracles) (s : DEC) (maxiter : Nat) :
    (s.connect O maxiter).1 = none ∧
    (s.graph.areConnected s.minstart s.minend = true → 1 ≤ maxiter →
      (s.connect O maxiter).2 = { s with NEBattempts := 2 }) := by
  constructor
  · exact connectLoop_none O maxiter _
  · intro hc hm
    obtain ⟨k, rfl⟩ : ∃ k, maxiter = k + 1 :=
      ⟨maxiter - 1, (Nat.succ_pred_eq_of_pos hm).symm⟩
    unfold DEC.connect connectLoop
    rw [if_pos hc]

/-- C1 witness: at the concrete connected state, `connect` returns `None`
without one `_localConnect` invocation. -/
theorem C1_witness :
    (DEC.connect oC sConn 5).1 = none ∧ (DEC.connect oC sConn 5).2.nLC = 0 := by
  have h := C1_connect_returns_none oC sConn 5
  refine ⟨h.1, ?_⟩
  rw [h.2 (by decide) (by decide)]
  rfl

/-! ## Claim C4: zero-weight preservation under `DistanceGraph.mergeMinima` -/

/-- C4 (code bug, witnessed by evaluation): on the failing input — edges
`(1,3)` of weight `0` (the pair is connected), `(2,3)` of weight `4` and
`(1,2)` of weight `1` — merging `keep = 1`, `remove = 2` produces a graph
with **no** edge `(1,3)` at all: the rebuild loop skips re-adding any edge
incident to `keep` whose old weight was zero, because its "don't overwrite a
zeroed edge weight" probe consults the *old* graph's weight dict instead of
the graph being built, contradicting the loop's own comment. -/
theorem C4_merge_drops_zero_edge :
    dgMerge.Gdist.findEdge 1 3 = some 0 ∧ dgMerge.Gdist.findEdge 2 3 = some 4 ∧
    connMerge.areConnected 1 3 = true ∧
    (DG.mergeMinima mdC connMerge dgMerge 1 2).Gdist.findEdge 1 3 = none := by decide

/-! ## The `checkGraph` loop: locality and preservation lemmas -/

theorem checkStep_Gdist_other (md : MinId → MinId → W) (conn : ConnGraph) (e : NXEdge)
    (s : DG) (x y : MinId) (h : ¬ pairMatch (e.a, e.b) (x, y)) :
    (s.checkStep md conn e).Gdist.findEdge x y = s.Gdist.findEdge x y := by
  unfold DG.checkStep DG.setTSC
  split
  · exact findEdge_add_other _ _ _ _ _ _ h
  · split
    · cases hgd : s.getDist md e.a e.b with
      | mk d s' =>
        have hG : s'.Gdist = s.Gdist := by
          have hx := getDist_Gdist md s e.a e.b
          rw [hgd] at hx
          exact hx
        rw [findEdge_add_other _ _ _ _ _ _ h, hG]
    · rfl

theorem checkStep_peek_other (md md' : MinId → MinId → W) (conn : ConnGraph) (e : NXEdge)
    (s : DG) (x y : MinId) (h : ¬ pairMatch (e.a, e.b) (x, y)) :
    (s.checkStep md conn e).peek md' x y = s.peek md' x y := by
  unfold DG.checkStep DG.setTSC
  split
  · rfl
  · split
    · cases hgd : s.getDist md e.a e.b with
      | mk d s' =>
        have hx := getDist_peek_other md md' s e.a e.b x y h
        rw [hgd] at hx
        exact hx
    · rfl

theorem checkStep_keep_zero (md : MinId → MinId → W) (conn : ConnGraph) (e : NXEdge)
    (s : DG) (u v : MinId) (hc : conn.areConnected u v = true)
    (hz : s.Gdist.findEdge u v = some 0) :
    (s.checkStep md conn e).Gdist.findEdge u v = some 0 := by
  by_cases hp : pairMatch (e.a, e.b) (u, v)
  · rcases pairMatch_cases hp with ⟨h1, h2⟩ | ⟨h1, h2⟩
    · subst h1
      subst h2
      unfold DG.checkStep DG.setTSC
      split
      · exact findEdge_add_self _ _ _ _
      · split
        · rename_i hcond
          exact absurd hc hcond.1
        · exact hz
    · subst h1
      subst h2
      have hc' : conn.areConnected e.a e.b = true := by
        rw [areConnected_symm]
        exact hc
      unfold DG.checkStep DG.setTSC
      split
      · rw [findEdge_symm]
        exact findEdge_add_self _ _ _ _
      · split
        · rename_i hcond
          exact absurd hc' hcond.1
        · exact hz
  · rw [checkStep_Gdist_other md conn e s u v hp]
    exact hz

theorem checkGraphGo_keep_zero (md : MinId → MinId → W) (conn : ConnGraph) (u v : MinId)
    (hc : conn.areConnected u v = true) :
    ∀ (es : List NXEdge) (s : DG), s.Gdist.findEdge u v = some 0 →
      (DG.checkGraphGo md conn es s).Gdist.findEdge u v = some 0 := by
  intro es
  induction es with
  | nil => intro s hz; exact hz
  | cons e rest ih =>
    intro s hz
    exact ih _ (checkStep_keep_zero md conn e s u v hc hz)

/-! ## Claim C7: the consistency check -/

theorem pairsOf_add_edge (g : NXGraph) (u v : MinId) (w : W)
    (h : (g.findEdge u v).isSome = true) :
    pairsOf (g.add_edge u v w) = pairsOf g := by
  unfold pairsOf
  rw [add_edge_edges, if_pos h, List.map_map]
  congr 1
  funext e
  by_cases hc : e.isPair u v = true <;> simp [hc]

theorem findEdge_isSome_of_pairsOf {g g' : NXGraph} (hp : pairsOf g' = pairsOf g)
    (x y : MinId) : (g'.findEdge x y).isSome = (g.findEdge x y).isSome := by
  have key : ∀ gg : NXGraph, ((gg.findEdge x y).isSome = true) ↔
      (∃ p, p ∈ pairsOf gg ∧ pairMatch (x, y) p) := by
    intro gg
    rw [findEdge_eq_find?]
    unfold pairsOf
    cases hfind : gg.edges.find? (fun e => e.isPair x y) with
    | some e =>
      have hmem := List.mem_of_find?_eq_some hfind
      have hpr := List.find?_some hfind
      constructor
      · intro _
        exact ⟨(e.a, e.b), List.mem_map_of_mem _ hmem, (isPair_iff_pairMatch e x y).mp hpr⟩
      · intro _
        rfl
    | none =>
      have hall := List.find?_eq_none.mp hfind
      constructor
      · intro hc
        exact absurd hc (by simp)
      · rintro ⟨p, hp, hm⟩
        rcases List.mem_map.mp hp with ⟨e, he, rfl⟩
        exact absurd ((isPair_iff_pairMatch e x y).mpr hm) (by simpa using hall e he)
  have h1 := key g'
  have h2 := key g
  rw [hp] at h1
  rw [Bool.eq_iff_iff, h1, h2]

theorem checkStep_pairsOf (md : MinId → MinId → W) (conn : ConnGraph) (e : NXEdge) (s : DG)
    (h : (s.Gdist.findEdge e.a e.b).isSome = true) :
    pairsOf (s.checkStep md conn e).Gdist = pairsOf s.Gdist := by
  unfold DG.checkStep DG.setTSC
  split
  · exact pairsOf_add_edge _ _ _ _ h
  · split
    · cases hgd : s.getDist md e.a e.b with
      | mk d s' =>
        have hG : s'.Gdist = s.Gdist := by
          have hx := getDist_Gdist md s e.a e.b
          rw [hgd] at hx
          exact hx
        rw [pairsOf_add_edge _ _ _ _ (by rw [hG]; exact h), hG]
    · rfl

theorem checkStep_self (md : MinId → MinId → W) (conn : ConnGraph) (e : NXEdge) (s : DG)
    (hw : s.Gdist.findEdge e.a e.b = some e.w) :
    (s.checkStep md conn e).Gdist.findEdge e.a e.b = some (repairW md conn s e) := by
  unfold DG.checkStep DG.setTSC repairW
  by_cases h1 : conn.areConnected e.a e.b = true ∧ ¬ (e.w < eps10)
  · rw [if_pos h1, if_pos h1]
    exact findEdge_add_self _ _ _ _
  · rw [if_neg h1, if_neg h1]
    by_cases h2 : ¬ (conn.areConnected e.a e.b = true) ∧ e.w < eps10
    · rw [if_pos h2, if_pos h2]
      cases hgd : s.getDist md e.a e.b with
      | mk d s' =>
        have hd : d = s.peek md e.a e.b := by
          have hx := getDist_fst md s e.a e.b
          rw [hgd] at hx
          exact hx
        rw [← hd]
        exact findEdge_add_self _ _ _ _
    · rw [if_neg h2, if_neg h2]
      exact hw

theorem checkGraphGo_other (md : MinId → MinId → W) (conn : ConnGraph) (x y : MinId) :
    ∀ (es : List NXEdge) (s : DG), (∀ e ∈ es, ¬ pairMatch (e.a, e.b) (x, y)) →
      (DG.checkGraphGo md conn es s).Gdist.findEdge x y = s.Gdist.findEdge x y := by
  intro es
  induction es with
  | nil => intro s _; rfl
  | cons e rest ih =>
    intro s hall
    show (DG.checkGraphGo md conn rest (s.checkStep md conn e)).Gdist.findEdge x y = _
    rw [ih _ (fun e' he' => hall e' (List.mem_cons_of_mem _ he')),
      checkStep_Gdist_other md conn e s x y (hall e (List.mem_cons_self _ _))]

theorem checkGraphGo_pairsOf (md : MinId → MinId → W) (conn : ConnGraph) :
    ∀ (es : List NXEdge) (s : DG), (∀ e ∈ es, (s.Gdist.findEdge e.a e.b).isSome = true) →
      pairsOf (DG.checkGraphGo md conn es s).Gdist = pairsOf s.Gdist := by
  intro es
  induction es with
  | nil => intro s _; rfl
  | cons e rest ih =>
    intro s hall
    have hhead := hall e (List.mem_cons_self _ _)
    have hstep := checkStep_pairsOf md conn e s hhead
    show pairsOf (DG.checkGraphGo md conn rest (s.checkStep md conn e)).Gdist = _
    rw [ih _ ?hrest, hstep]
    case hrest =>
      intro e' he'
      rw [findEdge_isSome_of_pairsOf hstep]
      exact hall e' (List.mem_cons_of_mem _ he')

theorem checkGraphGo_spec (md : MinId → MinId → W) (conn : ConnGraph) :
    ∀ (es : List NXEdge) (s : DG),
      es.Pairwise (fun e e' => ¬ pairMatch (e.a, e.b) (e'.a, e'.b)) →
      (∀ e ∈ es, s.Gdist.findEdge e.a e.b = some e.w) →
      ∀ e ∈ es, (DG.checkGraphGo md conn es s).Gdist.findEdge e.a e.b =
        some (repairW md conn s e) := by
  intro es
  induction es with
  | nil => intro s _ _ e he; simp at he
  | cons e₀ rest ih =>
    intro s hpw hsub e he
    have hpw' := List.pairwise_cons.mp hpw
    rcases List.mem_cons.mp he with rfl | hmem
    · show (DG.checkGraphGo md conn rest (s.checkStep md conn e)).Gdist.findEdge e.a e.b = _
      rw [checkGraphGo_other md conn e.a e.b rest _
        (fun e' he' hm => (hpw'.1 e' he') (pairMatch_symm hm))]
      exact checkStep_self md conn e s (hsub e (List.mem_cons_self _ _))
    · have hstep : ∀ e' ∈ rest, (s.checkStep md conn e₀).Gdist.findEdge e'.a e'.b = some e'.w := by
        intro e' he'
        rw [checkStep_Gdist_other md conn e₀ s e'.a e'.b (hpw'.1 e' he')]
        exact hsub e' (List.mem_cons_of_mem _ he')
      have hrw : repairW md conn (s.checkStep md conn e₀) e = repairW md conn s e := by
        unfold repairW
        rw [checkStep_peek_other md md conn e₀ s e.a e.b (hpw'.1 e hmem)]
      show (DG.checkGraphGo md conn rest (s.checkStep md conn e₀)).Gdist.findEdge e.a e.b = _
      rw [ih (s.checkStep md conn e₀) hpw'.2 hstep e hmem, hrw]

/-- C7 counterexample: a connected pair carrying the tiny nonzero weight
`5e-11` is below the `1e-10` threshold, so `checkGraph` leaves it untouched —
after the repair the edge weight is *not* zero although the pair is
connected in the Connectivity Graph. -/
theorem C7_counterexample :
    connRep.areConnected 1 2 = true ∧
    (DG.checkGraph mdC connRep dgTiny).Gdist.findEdge 1 2 = some (mkRat 1 20000000000) ∧
    ¬ ((mkRat 1 20000000000 : W) = 0) := by decide

/-- C7 (amended): after `checkGraph`, an edge's weight is below the `1e-10`
threshold (the code's notion of "zero") exactly when its pair is connected in
the Connectivity Graph — provided every repaired squared distance reaches the
threshold (connected pairs with weight at least `1e-10` are rewritten to
exactly `0`, zero-weight edges of unconnected pairs get the recomputed
squared distance, everything else is untouched); moreover a connected pair
sitting at weight exactly `0` is never moved away from `0` by the repair. -/
theorem C7_checkGraph_agrees (md : MinId → MinId → W) (conn : ConnGraph) (s : DG)
    (hok : s.Gdist.edgesOk)
    (hrep : ∀ e ∈ s.Gdist.edges, conn.areConnected e.a e.b = false → e.w < eps10 →
      eps10 ≤ distToWeight (s.peek md e.a e.b)) :
    (∀ e ∈ (s.checkGraph md conn).Gdist.edges,
      (conn.areConnected e.a e.b = true ↔ e.w < eps10)) ∧
    (∀ u v, conn.areConnected u v = true → s.Gdist.findEdge u v = some 0 →
      (s.checkGraph md conn).Gdist.findEdge u v = some 0) := by
  constructor
  · intro e' he'
    have hsub : ∀ e ∈ s.Gdist.edges, s.Gdist.findEdge e.a e.b = some e.w :=
      fun e he => findEdge_own hok he
    have hpairs : pairsOf (s.checkGraph md conn).Gdist = pairsOf s.Gdist :=
      checkGraphGo_pairsOf md conn s.Gdist.edges s
        (fun e he => by rw [hsub e he]; rfl)
    have hok' : (s.checkGraph md conn).Gdist.edgesOk := by
      unfold NXGraph.edgesOk
      rw [hpairs]
      exact hok
    have hv' : (s.checkGraph md conn).Gdist.findEdge e'.a e'.b = some e'.w :=
      findEdge_own hok' he'
    have hpmem : (e'.a, e'.b) ∈ pairsOf s.Gdist := by
      rw [← hpairs]
      exact List.mem_map_of_mem _ he'
    rcases List.mem_map.mp hpmem with ⟨e, he, heq⟩
    have ha : e.a = e'.a := congrArg Prod.fst heq
    have hb : e.b = e'.b := congrArg Prod.snd heq
    have hspec := checkGraphGo_spec md conn s.Gdist.edges s (edgesOk_pairwise hok) hsub e he
    rw [ha, hb] at hspec
    unfold DG.checkGraph at hv'
    rw [hv'] at hspec
    have hwv : e'.w = repairW md conn s e := Option.some.inj hspec
    rw [← ha, ← hb, hwv]
    unfold repairW
    by_cases h1 : conn.areConnected e.a e.b = true ∧ ¬ (e.w < eps10)
    · rw [if_pos h1]
      exact iff_of_true h1.1 (by decide)
    · by_cases h2 : ¬ (conn.areConnected e.a e.b = true) ∧ e.w < eps10
      · rw [if_neg h1, if_pos h2]
        have hge := hrep e he (Bool.not_eq_true _ ▸ Bool.of_not_eq_true h2.1) h2.2
        exact iff_of_false h2.1 (not_lt.mpr hge)
      · rw [if_neg h1, if_neg h2]
        by_cases hcc : conn.areConnected e.a e.b = true
        · have hlt : e.w < eps10 := by
            by_contra hnl
            exact h1 ⟨hcc, hnl⟩
          exact iff_of_true hcc hlt
        · have hnl : ¬ (e.w < eps10) := by
            by_contra hl
            exact h2 ⟨hcc, hl⟩
          exact iff_of_false hcc hnl
  · intro u v hc hz
    exact checkGraphGo_keep_zero md conn u v hc s.Gdist.edges s hz

/-- C7 witness: on a state with a consistent connected zero edge `(1,2)` and
an inconsistent zero edge `(2,3)` of an unconnected pair, the repair leaves
`(1,2)` at exactly `0`. -/
theorem C7_witness :
    (DG.checkGraph mdC connRep dgRep).Gdist.findEdge 1 2 = some 0 := by
  have h := C7_checkGraph_agrees mdC connRep dgRep (by decide) ?hrep
  · exact h.2 1 2 (by decide) (by decide)
  case hrep =>
    intro e he hcon hw
    have hmem : e = (⟨1, 2, 0⟩ : NXEdge) ∨ e = (⟨2, 3, 0⟩ : NXEdge) := by
      simpa [dgRep] using he
    rcases hmem with rfl | rfl
    · exact absurd hcon (by decide)
    · show eps10 ≤ distToWeight (dgRep.peek mdC 2 3)
      have hpk : dgRep.peek mdC 2 3 = 1 := by decide
      rw [hpk]
      have h1 : distToWeight 1 = 1 := by
        unfold distToWeight
        exact one_pow 2
      rw [h1]
      decide

/-! ## Claim C5: zero-weight edges under merges -/

theorem mergeStep_other (wts : List ((MinId × MinId) × W)) (m1 m2 : MinId) (e : NXEdge)
    (g : NXGraph) (u v : MinId)
    (hm1u : ¬ m1 = u) (hm1v : ¬ m1 = v) (hne : e.isPair u v = false) :
    (DG.mergeStep wts m1 m2 e g).findEdge u v = g.findEdge u v := by
  have hpe : ¬ pairMatch (e.a, e.b) (u, v) := by
    intro hp
    rw [Bool.eq_false_iff] at hne
    exact hne ((isPair_iff_pairMatch e u v).mpr (pairMatch_symm hp))
  have hm1x : ∀ x : MinId, ¬ pairMatch (m1, x) (u, v) := by
    intro x hp
    rcases pairMatch_cases hp with ⟨h1, h2⟩ | ⟨h1, h2⟩
    · exact hm1u h1.symm
    · exact hm1v h2.symm
  have hxm1 : ∀ x : MinId, ¬ pairMatch (x, m1) (u, v) := by
    intro x hp
    rcases pairMatch_cases hp with ⟨h1, h2⟩ | ⟨h1, h2⟩
    · exact hm1v h2.symm
    · exact hm1u h1.symm
  have hkeep : (mergeKeep m1 m2 e g).findEdge u v = g.findEdge u v := by
    unfold mergeKeep
    split
    · exact findEdge_add_other _ _ _ _ _ _ hpe
    · rfl
  have henew : ∀ (gg : NXGraph) (w' : W),
      (gg.add_edge (mergeEnew m1 m2 e).1 (mergeEnew m1 m2 e).2 w').findEdge u v =
        gg.findEdge u v := by
    intro gg w'
    unfold mergeEnew
    by_cases ht2 : e.a = m2 ∨ e.b = m2
    · rw [if_pos ht2]
      by_cases ha2 : e.a = m2
      · rw [if_pos ha2]
        exact findEdge_add_other _ _ _ _ _ _ (hm1x e.b)
      · rw [if_neg ha2]
        exact findEdge_add_other _ _ _ _ _ _ (hxm1 e.a)
    · rw [if_neg ht2]
      exact findEdge_add_other _ _ _ _ _ _ hpe
  unfold DG.mergeStep
  split
  · exact hkeep
  · split
    · split
      · exact hkeep
      · rw [henew]
        exact hkeep
    · rw [henew]
      exact hkeep

theorem mergeStep_zero_self (wts : List ((MinId × MinId) × W)) (m1 m2 : MinId)
    (e : NXEdge) (g : NXGraph) (u v : MinId)
    (hp : e.isPair u v = true) (hw : e.w = 0)
    (h1a : ¬ e.a = m1) (h1b : ¬ e.b = m1) (h2a : ¬ e.a = m2) (h2b : ¬ e.b = m2)
    (hwts : assocW wts (e.a, e.b) = some 0) :
    (DG.mergeStep wts m1 m2 e g).findEdge u v = some 0 := by
  have ht1 : ¬ (e.a = m1 ∨ e.b = m1) := by tauto
  have ht2 : ¬ (e.a = m2 ∨ e.b = m2) := by tauto
  have hC2 : ¬ ((e.a = m1 ∨ e.b = m1) ∧ (e.a = m2 ∨ e.b = m2)) := fun hc => ht1 hc.1
  have henew : mergeEnew m1 m2 e = (e.a, e.b) := by
    unfold mergeEnew
    rw [if_neg ht2]
  have hkeep : mergeKeep m1 m2 e g = g.add_edge e.a e.b e.w := by
    unfold mergeKeep
    rw [if_pos ⟨ht1, ht2⟩]
  have hgoal : (g.add_edge e.a e.b e.w).findEdge u v = some 0 := by
    rcases pairMatch_cases ((isPair_iff_pairMatch e u v).mp hp) with ⟨hu, hv⟩ | ⟨hu, hv⟩
    · subst hu
      subst hv
      rw [← hw]
      exact findEdge_add_self _ _ _ _
    · subst hu
      subst hv
      rw [findEdge_symm, ← hw]
      exact findEdge_add_self _ _ _ _
  unfold DG.mergeStep
  rw [if_neg hC2, henew]
  cases hcase : assocW wts (e.a, e.b) with
  | none => rw [hcase] at hwts; exact absurd hwts (by simp)
  | some ew =>
    rw [hcase] at hwts
    have hew : ew = 0 := by simpa using hwts
    show (if ew < eps10 then mergeKeep m1 m2 e g
      else (mergeKeep m1 m2 e g).add_edge (e.a, e.b).1 (e.a, e.b).2 e.w).findEdge u v = some 0
    rw [if_pos (by rw [hew]; decide), hkeep]
    exact hgoal

theorem mergeGo_keep (wts : List ((MinId × MinId) × W)) (m1 m2 u v : MinId)
    (hm1u : ¬ m1 = u) (hm1v : ¬ m1 = v) :
    ∀ (es : List NXEdge) (g : NXGraph), (∀ e ∈ es, e.isPair u v = false) →
      (DG.mergeGo wts m1 m2 es g).findEdge u v = g.findEdge u v := by
  intro es
  induction es with
  | nil => intro g _; rfl
  | cons e rest ih =>
    intro g hall
    show (DG.mergeGo wts m1 m2 rest (DG.mergeStep wts m1 m2 e g)).findEdge u v = _
    rw [ih _ (fun e' he' => hall e' (List.mem_cons_of_mem _ he')),
      mergeStep_other wts m1 m2 e g u v hm1u hm1v (hall e (List.mem_cons_self _ _))]

theorem mergeGo_append (wts : List ((MinId × MinId) × W)) (m1 m2 : MinId)
    (l₁ l₂ : List NXEdge) (g : NXGraph) :
    DG.mergeGo wts m1 m2 (l₁ ++ l₂) g = DG.mergeGo wts m1 m2 l₂ (DG.mergeGo wts m1 m2 l₁ g) := by
  induction l₁ generalizing g with
  | nil => rfl
  | cons e l₁ ih =>
    show DG.mergeGo wts m1 m2 (l₁ ++ l₂) (DG.mergeStep wts m1 m2 e g) = _
    exact ih _

/-- C5 counterexample: a *successful* Local Connector attempt (here through
the duplicate-attempt guard, which returns `True`) leaves the attempted
pair's Distance-Graph edge *removed*, not at weight `0`. -/
theorem C5_counterexample :
    (DEC.localConnect oC sDup 1 2 0).1 = true ∧
    (DEC.localConnect oC sDup 1 2 0).2.dgs.Gdist.findEdge 1 2 = none := by decide

/-- C5 (amended): after `setTransitionStateConnection(u, v)` the Distance
Graph edge `(u, v)` has weight exactly `0`; and provided `u` and `v` are
connected in the Connectivity Graph (so the debug consistency check run at
the end of the merge does not re-weight the pair), a zero-weight edge
`(u, v)` keeps weight exactly `0` under any `DistanceGraph.mergeMinima`
whose two arguments both differ from `u` and `v`.  (After a *successful
Local Connector attempt* on `(u, v)` the edge is in general removed rather
than zeroed — see the counterexample — so the amended claim drops that
part.) -/
theorem C5_zero_weight_stable (md : MinId → MinId → W) (conn : ConnGraph) (s : DG)
    (u v a b : MinId) (hok : s.Gdist.edgesOk)
    (hconn : conn.areConnected u v = true)
    (hau : ¬ a = u) (hav : ¬ a = v) (hbu : ¬ b = u) (hbv : ¬ b = v) :
    (s.setTSC u v).Gdist.findEdge u v = some 0 ∧
    (s.Gdist.findEdge u v = some 0 →
      (s.mergeMinima md conn a b).Gdist.findEdge u v = some 0) := by
  constructor
  · exact findEdge_add_self _ _ _ _
  · intro hz
    unfold DG.mergeMinima
    apply checkGraphGo_keep_zero md conn u v hconn
    rw [findEdge_eq_find?] at hz
    cases hfind : s.Gdist.edges.find? (fun e => e.isPair u v) with
    | none => rw [hfind] at hz; simp at hz
    | some e₀ =>
      rw [hfind] at hz
      have hw0 : e₀.w = 0 := by simpa using hz
      have hp0 := List.find?_some hfind
      rcases List.find?_eq_some.mp hfind with ⟨_, as, bs, hdec, hfirst⟩
      have hmem : e₀ ∈ s.Gdist.edges := List.mem_of_find?_eq_some hfind
      have hwts : assocW (getEdgeAttributes s.Gdist) (e₀.a, e₀.b) = some 0 := by
        rw [assocW_attrs_own hok hmem, hw0]
      have hpw := edgesOk_pairwise hok
      rw [hdec] at hpw
      have hbs : ∀ e ∈ bs, e.isPair u v = false := by
        intro e he
        rw [Bool.eq_false_iff]
        intro hc
        have h1 := (List.pairwise_append.mp hpw).2.1
        have h2 := (List.pairwise_cons.mp h1).1 e he
        exact h2 (pairMatch_trans
          ((isPair_iff_pairMatch e₀ u v).mp hp0) ((isPair_iff_pairMatch e u v).mp hc))
      have has : ∀ e ∈ as, e.isPair u v = false := by
        intro e he
        have := hfirst e he
        simpa using this
      have hcorn : ∀ x : MinId, x = e₀.a ∨ x = e₀.b → ¬ (x = a) ∧ ¬ (x = b) := by
        intro x hx
        rcases pairMatch_cases ((isPair_iff_pairMatch e₀ u v).mp hp0) with ⟨h1, h2⟩ | ⟨h1, h2⟩
        · rcases hx with rfl | rfl
          · exact ⟨fun hc => hau (hc ▸ h1.symm ▸ rfl), fun hc => hbu (hc ▸ h1.symm ▸ rfl)⟩
          · exact ⟨fun hc => hav (hc ▸ h2.symm ▸ rfl), fun hc => hbv (hc ▸ h2.symm ▸ rfl)⟩
        · rcases hx with rfl | rfl
          · exact ⟨fun hc => hav (hc ▸ h1.symm ▸ rfl), fun hc => hbv (hc ▸ h1.symm ▸ rfl)⟩
          · exact ⟨fun hc => hau (hc ▸ h2.symm ▸ rfl), fun hc => hbu (hc ▸ h2.symm ▸ rfl)⟩
      rw [hdec, mergeGo_append]
      show (DG.mergeGo (getEdgeAttributes s.Gdist) a b bs
        (DG.mergeStep (getEdgeAttributes s.Gdist) a b e₀
          (DG.mergeGo (getEdgeAttributes s.Gdist) a b as
            ⟨s.Gdist.nodes.filter (fun n => ¬ (n = b)), []⟩))).findEdge u v = some 0
      rw [mergeGo_keep _ a b u v hau hav bs _ hbs]
      exact mergeStep_zero_self _ a b e₀ _ u v hp0 hw0
        ((hcorn e₀.a (Or.inl rfl)).1) ((hcorn e₀.b (Or.inr rfl)).1)
        ((hcorn e₀.a (Or.inl rfl)).2) ((hcorn e₀.b (Or.inr rfl)).2) hwts

/-- C5 witness: the concrete zero edge `(1, 3)` of a connected pair survives
the merge of the unrelated pair `(4, 7)` at weight exactly `0`. -/
theorem C5_witness :
    (DG.mergeMinima mdC ⟨[(1, 3)]⟩
      ⟨⟨[1, 3, 4, 7], [⟨1, 3, 0⟩, ⟨4, 7, 2⟩]⟩, [], [], 0⟩ 4 7).Gdist.findEdge 1 3 = some 0 :=
  (C5_zero_weight_stable mdC ⟨[(1, 3)]⟩
    ⟨⟨[1, 3, 4, 7], [⟨1, 3, 0⟩, ⟨4, 7, 2⟩]⟩, [], [], 0⟩ 1 3 4 7
    (by decide) (by decide) (by decide) (by decide) (by decide) (by decide)).2 (by decide)

/-! ## Claim C6: the fate of the attempted pair's edge -/

theorem DEC_getDist_eq (md : MinId → MinId → W) (s : DEC) (m1 m2 : MinId) :
    DEC.getDist md s m1 m2 =
      ((s.dgs.getDist md m1 m2).1, { s with dgs := (s.dgs.getDist md m1 m2).2 }) := by
  unfold DEC.getDist
  cases hgd : s.dgs.getDist md m1 m2 with
  | mk d dgs => rfl

theorem lcConnected_zero (md : MinId → MinId → W) (s : DEC) (m1 m2 : MinId)
    (hconn : s.graph.areConnected m1 m2 = true) :
    (s.lcConnected md m1 m2).2.dgs.Gdist.findEdge m1 m2 = some 0 := by
  unfold DEC.lcConnected
  rw [DEC_getDist_eq]
  apply checkGraphGo_keep_zero md _ m1 m2 hconn
  exact findEdge_add_self _ _ _ _

theorem lcNEB_eq (O : Oracles) (s : DEC) (m1 m2 : MinId) (rep : Nat) :
    DEC.lcNEB O s m1 m2 rep =
      (if (O.climb m1 m2 rep).length = 0 then
        DEC.lcZeroClimb O
          { s with dgs := { s.dgs with ncalls := s.dgs.ncalls + 1 }, nNEB := s.nNEB + 1 }
          m1 m2 rep
      else
        DEC.lcRefine O
          { s with dgs := { s.dgs with ncalls := s.dgs.ncalls + 1 }, nNEB := s.nNEB + 1 }
          m1 m2 rep (O.climb m1 m2 rep)) := rfl

theorem lcZeroClimb_eq (O : Oracles) (s : DEC) (m1 m2 : MinId) (rep : Nat) :
    DEC.lcZeroClimb O s m1 m2 rep =
      (if s.merge_minima = true ∧ rep = s.NEBattempts - 1 then
        (false, DEC.mergeMinima O.md { s with dgs := (DG.getDist O.md s.dgs m1 m2).2 } m1 m2)
      else (false, { s with dgs := (DG.getDist O.md s.dgs m1 m2).2 })) := by
  unfold DEC.lcZeroClimb
  rw [DEC_getDist_eq]

theorem lcZeroClimb_Gdist (O : Oracles) (s : DEC) (m1 m2 : MinId) (rep : Nat)
    (hmg : ¬ (s.merge_minima = true ∧ rep = s.NEBattempts - 1)) :
    (s.lcZeroClimb O m1 m2 rep).2.dgs.Gdist = s.dgs.Gdist := by
  rw [lcZeroClimb_eq, if_neg hmg]
  exact getDist_Gdist O.md s.dgs m1 m2

theorem lcRefine_removes (O : Oracles) (s : DEC) (m1 m2 : MinId) (rep : Nat)
    (climbing : List (W × Nat)) :
    (s.lcRefine O m1 m2 rep climbing).2.dgs.Gdist.findEdge m1 m2 = none := by
  unfold DEC.lcRefine
  cases hrl : refineLoop O m1 m2 rep ((ciSort climbing).take (min s.nrefine_max
      (ciSort climbing).length)) false s with
  | mk succ s4 => exact findEdge_remove_self _ _ _

/-- C6 counterexample: on an already-connected pair, `_localConnect` signals
success *without* removing the planning edge — it sets it to weight `0`
instead, so the edge is still present when the attempt returns. -/
theorem C6_counterexample :
    (DEC.localConnect oC sAC 0 1 0).1 = true ∧
    (DEC.localConnect oC sAC 0 1 0).2.dgs.Gdist.findEdge 0 1 = some 0 := by decide

/-- C6 (amended): `_localConnect` removes the pair's planning edge in the
duplicate-attempt guard and whenever the NEB stage runs and yields at least
one climbing image (success or not); but in the already-connected branch the
edge is *set to weight 0* rather than removed, and in the zero-climbing
branch (when no merge fires) the planning graph is left entirely
unchanged — so the pair's edge is *not* removed on every outcome. -/
theorem C6_localConnect_edge_fate (O : Oracles) (s : DEC) (m1 m2 : MinId) (rep : Nat) :
    ((m1, m2) ∈ s.pairsNEB ∧ rep = 0 →
      (s.localConnect O m1 m2 rep).2.dgs.Gdist.findEdge m1 m2 = none) ∧
    (¬ ((m1, m2) ∈ s.pairsNEB ∧ rep = 0) → s.graph.areConnected m1 m2 = true →
      (s.localConnect O m1 m2 rep).2.dgs.Gdist.findEdge m1 m2 = some 0) ∧
    (¬ ((m1, m2) ∈ s.pairsNEB ∧ rep = 0) → ¬ (s.graph.areConnected m1 m2 = true) →
      O.climb m1 m2 rep = [] → ¬ (s.merge_minima = true ∧ rep = s.NEBattempts - 1) →
      (s.localConnect O m1 m2 rep).2.dgs.Gdist = s.dgs.Gdist) ∧
    (¬ ((m1, m2) ∈ s.pairsNEB ∧ rep = 0) → ¬ (s.graph.areConnected m1 m2 = true) →
      ¬ (O.climb m1 m2 rep = []) →
      (s.localConnect O m1 m2 rep).2.dgs.Gdist.findEdge m1 m2 = none) := by
  refine ⟨?_, ?_, ?_, ?_⟩
  · intro hdup
    unfold DEC.localConnect
    rw [if_pos hdup]
    exact findEdge_remove_self _ _ _
  · intro hdup hconn
    unfold DEC.localConnect
    rw [if_neg hdup, if_pos hconn]
    exact lcConnected_zero O.md _ m1 m2 hconn
  · intro hdup hconn hcl hmg
    unfold DEC.localConnect
    rw [if_neg hdup, if_neg hconn, lcNEB_eq, hcl]
    rw [if_pos (@List.length_nil (W × Nat))]
    exact lcZeroClimb_Gdist O _ m1 m2 rep hmg
  · intro hdup hconn hcl
    unfold DEC.localConnect
    rw [if_neg hdup, if_neg hconn, lcNEB_eq]
    rw [if_neg (fun hc => hcl (List.length_eq_zero.mp hc))]
    exact lcRefine_removes O _ m1 m2 rep _

/-- C6 witness: on an unattempted, unconnected pair whose NEB produces one
(unrefinable) climbing image, the attempt removes the pair's planning
edge. -/
theorem C6_witness :
    (DEC.localConnect oCl sDup 0 1 0).2.dgs.Gdist.findEdge 0 1 = none :=
  (C6_localConnect_edge_fate oCl sDup 0 1 0).2.2.2 (by decide) (by decide) (by decide)

/-! ## Soundness and completeness of the path enumeration -/

theorem mem_nbrs_adj {g : NXGraph} {u n : MinId} (h : n ∈ g.nbrs u) : g.adj u n = true := by
  unfold NXGraph.nbrs at h
  rcases List.mem_filterMap.mp h with ⟨e, he, hfe⟩
  unfold NXGraph.adj
  rw [List.any_eq_true]
  refine ⟨e, he, ?_⟩
  by_cases ha : e.a = u
  · rw [if_pos ha] at hfe
    have hb : e.b = n := by simpa using hfe
    simp [NXEdge.isPair, ha, hb]
  · rw [if_neg ha] at hfe
    by_cases hb : e.b = u
    · rw [if_pos hb] at hfe
      have hA : e.a = n := by simpa using hfe
      simp [NXEdge.isPair, hA, hb]
    · rw [if_neg hb] at hfe
      simp at hfe

theorem adj_pair {g : NXGraph} {x y : MinId} (h : g.adj x y = true) :
    ∃ e ∈ g.edges, (e.a = x ∧ e.b = y) ∨ (e.a = y ∧ e.b = x) := by
  unfold NXGraph.adj at h
  rw [List.any_eq_true] at h
  rcases h with ⟨e, he, hp⟩
  refine ⟨e, he, ?_⟩
  simpa [NXEdge.isPair] using hp

theorem adj_mem_nbrs {g : NXGraph} {u n : MinId} (hadj : g.adj u n = true) (hne : ¬ n = u) :
    n ∈ g.nbrs u := by
  rcases adj_pair hadj with ⟨e, he, hp⟩
  unfold NXGraph.nbrs
  rw [List.mem_filterMap]
  refine ⟨e, he, ?_⟩
  rcases hp with ⟨h1, h2⟩ | ⟨h1, h2⟩
  · rw [if_pos h1, h2]
  · have ha : ¬ (e.a = u) := by rw [h1]; exact hne
    rw [if_neg ha, if_pos h2, h1]

theorem sps_sound (g : NXGraph) (tgt : MinId) :
    ∀ (f : Nat) (cur : MinId) (vis : List MinId) (p : List MinId),
      p ∈ sps g tgt f cur vis →
      p.head? = some cur ∧ p.getLast? = some tgt ∧ List.Chain' (adjP g) p := by
  intro f
  induction f with
  | zero => intro cur vis p hp; simp [sps] at hp
  | succ n ih =>
    intro cur vis p hp
    unfold sps at hp
    by_cases hc : cur = tgt
    · rw [if_pos hc] at hp
      have hp1 : p = [cur] := by simpa using hp
      subst hp1
      subst hc
      exact ⟨rfl, rfl, List.chain'_singleton _⟩
    · rw [if_neg hc] at hp
      rw [List.mem_flatten] at hp
      rcases hp with ⟨l, hl, hpl⟩
      rw [List.mem_map] at hl
      rcases hl with ⟨n', hn', rfl⟩
      rw [List.mem_map] at hpl
      rcases hpl with ⟨p', hp', rfl⟩
      have hmemn : n' ∈ g.nbrs cur := (List.mem_filter.mp hn').1
      have hadj : g.adj cur n' = true := mem_nbrs_adj hmemn
      rcases ih n' (cur :: vis) p' hp' with ⟨hh, hlast, hch⟩
      have hne : p' ≠ [] := by
        intro hcc; rw [hcc] at hh; exact Option.noConfusion hh
      refine ⟨rfl, ?_, ?_⟩
      · cases p' with
        | nil => exact absurd rfl hne
        | cons b t => rw [List.getLast?_cons_cons]; exact hlast
      · refine List.Chain'.cons' hch ?_
        intro y hy
        rw [hh] at hy
        have : n' = y := by simpa using hy
        rw [← this]
        exact hadj

theorem getLast?_append_cons {α : Type} :
    ∀ (l : List α) (a : α) (t : List α), (l ++ a :: t).getLast? = (a :: t).getLast? := by
  intro l
  induction l with
  | nil => intro a t; rfl
  | cons x xs ih =>
    intro a t
    rw [List.cons_append]
    cases hxx : xs ++ a :: t with
    | nil => exact absurd hxx (by simp)
    | cons y ys => rw [List.getLast?_cons_cons, ← hxx, ih]

theorem reach_walk {g : NXGraph} {u v : MinId} (h : Reach g u v) :
    ∃ p : List MinId, p.head? = some u ∧ p.getLast? = some v ∧ List.Chain' (adjP g) p := by
  induction h with
  | refl => exact ⟨[u], rfl, rfl, List.chain'_singleton _⟩
  | tail hr hadj ih =>
    rcases ih with ⟨p, hh, hl, hc⟩
    rename_i b x
    have hne : p ≠ [] := by intro hcc; rw [hcc] at hh; exact Option.noConfusion hh
    refine ⟨p ++ [x], ?_, List.getLast?_concat p, ?_⟩
    · cases p with
      | nil => exact absurd rfl hne
      | cons a t => simpa using hh
    · rw [List.chain'_append]
      refine ⟨hc, List.chain'_singleton x, ?_⟩
      intro y hy z hz
      have hz' : x = z := by simpa using hz
      rw [hl] at hy
      have hy' : b = y := by simpa using hy
      rw [← hy', ← hz']
      exact hadj

theorem reach_head_step {g : NXGraph} {u b v : MinId} (hadj : g.adj u b = true)
    (h : Reach g b v) : Reach g u v := by
  induction h with
  | refl => exact Reach.tail (Reach.refl u) hadj
  | tail hr hadj2 ih => exact Reach.tail ih hadj2

theorem walk_reach {g : NXGraph} :
    ∀ (p : List MinId) (u v : MinId), p.head? = some u → p.getLast? = some v →
      List.Chain' (adjP g) p → Reach g u v := by
  intro p
  induction p with
  | nil => intro u v hh; exact absurd hh (by simp)
  | cons a t ih =>
    intro u v hh hl hc
    have hau : a = u := by simpa using hh
    subst hau
    cases t with
    | nil =>
      have hav : a = v := by simpa using hl
      subst hav
      exact Reach.refl a
    | cons b t' =>
      have hadj : adjP g a b := (List.chain'_cons.mp hc).1
      have hl' : (b :: t').getLast? = some v := by
        rw [List.getLast?_cons_cons] at hl; exact hl
      exact reach_head_step hadj (ih b v rfl hl' (List.chain'_cons.mp hc).2)

theorem not_nodup_split {α : Type} [DecidableEq α] {l : List α} (h : ¬ l.Nodup) :
    ∃ (a : α) (l₁ l₂ l₃ : List α), l = l₁ ++ ((a :: l₂) ++ (a :: l₃)) := by
  induction l with
  | nil => exact absurd List.nodup_nil h
  | cons x xs ih =>
    by_cases hx : x ∈ xs
    · rcases List.append_of_mem hx with ⟨s, t, rfl⟩
      exact ⟨x, [], s, t, rfl⟩
    · have hxs : ¬ xs.Nodup := fun hn => h (List.nodup_cons.mpr ⟨hx, hn⟩)
      rcases ih hxs with ⟨a, l₁, l₂, l₃, rfl⟩
      exact ⟨a, x :: l₁, l₂, l₃, rfl⟩

theorem walk_to_nodup {g : NXGraph} :
    ∀ (n : Nat) (p : List MinId) (u v : MinId), p.length ≤ n →
      p.head? = some u → p.getLast? = some v → List.Chain' (adjP g) p →
      ∃ q : List MinId, q.head? = some u ∧ q.getLast? = some v ∧
        List.Chain' (adjP g) q ∧ q.Nodup := by
  intro n
  induction n with
  | zero =>
    intro p u v hlen hh _ _
    have hp : p = [] := List.length_eq_zero.mp (Nat.le_zero.mp hlen)
    rw [hp] at hh
    exact absurd hh (by simp)
  | succ n ih =>
    intro p u v hlen hh hl hc
    by_cases hnd : p.Nodup
    · exact ⟨p, hh, hl, hc, hnd⟩
    · rcases not_nodup_split hnd with ⟨a, l₁, l₂, l₃, rfl⟩
      have hh' : (l₁ ++ a :: l₃).head? = some u := by
        cases l₁ with
        | nil => simpa using hh
        | cons b t => simpa using hh
      have hl' : (l₁ ++ a :: l₃).getLast? = some v := by
        rw [List.cons_append, getLast?_append_cons, ← List.cons_append,
          getLast?_append_cons] at hl
        rw [getLast?_append_cons]
        exact hl
      have hsplit := List.chain'_append.mp hc
      have hsplit2 := List.chain'_append.mp hsplit.2.1
      have hc' : List.Chain' (adjP g) (l₁ ++ a :: l₃) := by
        rw [List.chain'_append]
        refine ⟨hsplit.1, hsplit2.2.1, ?_⟩
        intro x hx y hy
        have hy' : a = y := by simpa using hy
        rw [← hy']
        exact hsplit.2.2 x hx a (by simp)
      have hlen' : (l₁ ++ a :: l₃).length ≤ n := by
        simp only [List.length_append, List.length_cons] at hlen ⊢
        omega
      exact ih (l₁ ++ a :: l₃) u v hlen' hh' hl' hc'

theorem adj_mem_endPts {g : NXGraph} {x y : MinId} (h : g.adj x y = true) :
    x ∈ endPts g ∧ y ∈ endPts g := by
  rcases adj_pair h with ⟨e, he, hp⟩
  unfold endPts
  rcases hp with ⟨h1, h2⟩ | ⟨h1, h2⟩
  · exact ⟨List.mem_append_left _ (h1 ▸ List.mem_map_of_mem _ he),
      List.mem_append_right _ (h2 ▸ List.mem_map_of_mem _ he)⟩
  · exact ⟨List.mem_append_right _ (h2 ▸ List.mem_map_of_mem _ he),
      List.mem_append_left _ (h1 ▸ List.mem_map_of_mem _ he)⟩

theorem chain_subset_endPts {g : NXGraph} :
    ∀ (p : List MinId), List.Chain' (adjP g) p → 2 ≤ p.length → ∀ x ∈ p, x ∈ endPts g := by
  intro p
  induction p with
  | nil => intro _ h2; exact absurd h2 (by simp)
  | cons a t ih =>
    intro hc hlen x hx
    cases t with
    | nil => exact absurd hlen (by simp)
    | cons b t' =>
      have hadj : adjP g a b := (List.chain'_cons.mp hc).1
      rcases List.mem_cons.mp hx with rfl | hx'
      · exact (adj_mem_endPts hadj).1
      · cases t' with
        | nil =>
          have hxb : x = b := by simpa using hx'
          rw [hxb]
          exact (adj_mem_endPts hadj).2
        | cons c t'' =>
          exact ih (List.chain'_cons.mp hc).2 (by simp) x hx'

theorem nodup_walk_length {g : NXGraph} {q : List MinId}
    (hc : List.Chain' (adjP g) q) (hnd : q.Nodup) : q.length ≤ spsFuel g := by
  by_cases h2 : 2 ≤ q.length
  · have hsub : ∀ x ∈ q, x ∈ endPts g := chain_subset_endPts q hc h2
    have hle : q.length ≤ (endPts g).length :=
      (List.subperm_of_subset hnd hsub).length_le
    unfold endPts at hle
    unfold spsFuel
    simp only [List.length_append, List.length_map] at hle
    omega
  · unfold spsFuel
    omega

theorem sps_complete (g : NXGraph) (tgt : MinId) :
    ∀ (q : List MinId) (f : Nat) (cur : MinId) (vis : List MinId),
      q.head? = some cur → q.getLast? = some tgt → List.Chain' (adjP g) q → q.Nodup →
      (∀ x ∈ q, ¬ x ∈ vis) → q.length ≤ f → sps g tgt f cur vis ≠ [] := by
  intro q
  induction q with
  | nil => intro f cur vis hh; exact absurd hh (by simp)
  | cons a t ih =>
    intro f cur vis hh hl hc hnd hvis hlen
    have hac : a = cur := by simpa using hh
    subst hac
    cases f with
    | zero => exact absurd hlen (by simp)
    | succ n =>
      unfold sps
      by_cases hct : a = tgt
      · rw [if_pos hct]
        simp
      · rw [if_neg hct]
        cases t with
        | nil =>
          have : a = tgt := by simpa using hl
          exact absurd this hct
        | cons b t' =>
          have hadj : adjP g a b := (List.chain'_cons.mp hc).1
          have hba : ¬ b = a := by
            intro hcc
            exact (List.nodup_cons.mp hnd).1 (hcc ▸ List.mem_cons_self b t')
          have hmem : b ∈ (g.nbrs a).filter (fun m => ¬ (m ∈ a :: vis)) := by
            rw [List.mem_filter]
            refine ⟨adj_mem_nbrs hadj hba, ?_⟩
            simp only [decide_eq_true_eq, List.mem_cons, not_or]
            exact ⟨hba, hvis b (List.mem_cons_of_mem a (List.mem_cons_self b t'))⟩
          have hne : sps g tgt n b (a :: vis) ≠ [] := by
            refine ih n b (a :: vis) rfl ?_ (List.chain'_cons.mp hc).2
              (List.nodup_cons.mp hnd).2 ?_ ?_
            · rw [List.getLast?_cons_cons] at hl; exact hl
            · intro x hx hxav
              rcases List.mem_cons.mp hxav with rfl | hxv
              · exact (List.nodup_cons.mp hnd).1 hx
              · exact hvis x (List.mem_cons_of_mem a hx) hxv
            · simp only [List.length_cons] at hlen ⊢
              omega
          intro hflat
          have hmemflat : (sps g tgt n b (a :: vis)).map (fun p => a :: p) ∈
              ((g.nbrs a).filter (fun m => ¬ (m ∈ a :: vis))).map
                (fun n' => (sps g tgt n n' (a :: vis)).map (fun p => a :: p)) :=
            List.mem_map_of_mem _ hmem
          have hmapnil := (List.flatten_eq_nil_iff.mp hflat) _ hmemflat
          cases hs : sps g tgt n b (a :: vis) with
          | nil => exact hne hs
          | cons z zs =>
            rw [hs] at hmapnil
            exact absurd hmapnil (by simp)

theorem reach_sps_nonempty {g : NXGraph} {u v : MinId} (h : Reach g u v) :
    sps g v (spsFuel g) u [] ≠ [] := by
  rcases reach_walk h with ⟨p, hh, hl, hc⟩
  rcases walk_to_nodup p.length p u v (Nat.le_refl _) hh hl hc with ⟨q, hh', hl', hc', hnd⟩
  exact sps_complete g v q (spsFuel g) u [] hh' hl' hc' hnd
    (fun x _ hx => (List.not_mem_nil x) hx) (nodup_walk_length hc' hnd)

theorem argminPath_cons_none (g : NXGraph) (p : List MinId) (ps : List (List MinId))
    (hm : argminPath g ps = none) : argminPath g (p :: ps) = some p := by
  unfold argminPath
  rw [hm]

theorem argminPath_cons_some (g : NXGraph) (p : List MinId) (ps : List (List MinId))
    (r : List MinId) (hm : argminPath g ps = some r) :
    argminPath g (p :: ps) =
      if pathWeight g r < pathWeight g p then some r else some p := by
  unfold argminPath
  rw [hm]

theorem argminPath_cons_ne_none (g : NXGraph) (p : List MinId) (ps : List (List MinId)) :
    argminPath g (p :: ps) ≠ none := by
  cases hm : argminPath g ps with
  | none => rw [argminPath_cons_none g p ps hm]; simp
  | some r =>
    rw [argminPath_cons_some g p ps r hm]
    by_cases hlt : pathWeight g r < pathWeight g p
    · rw [if_pos hlt]; simp
    · rw [if_neg hlt]; simp

theorem argminPath_mem (g : NXGraph) :
    ∀ (l : List (List MinId)) (q : List MinId), argminPath g l = some q → q ∈ l := by
  intro l
  induction l with
  | nil => intro q h; exact absurd h (by simp [argminPath])
  | cons p ps ih =>
    intro q h
    cases hm : argminPath g ps with
    | none =>
      rw [argminPath_cons_none g p ps hm] at h
      have hpq : p = q := by simpa using h
      rw [← hpq]
      exact List.mem_cons_self p ps
    | some r =>
      rw [argminPath_cons_some g p ps r hm] at h
      by_cases hlt : pathWeight g r < pathWeight g p
      · rw [if_pos hlt] at h
        have hrq : r = q := by simpa using h
        exact hrq ▸ List.mem_cons_of_mem p (ih r hm)
      · rw [if_neg hlt] at h
        have hpq : p = q := by simpa using h
        rw [← hpq]
        exact List.mem_cons_self p ps

theorem shortestPath_none_iff (g : NXGraph) (u v : MinId) :
    g.shortestPath u v = none ↔ ¬ Reach g u v := by
  unfold NXGraph.shortestPath
  constructor
  · intro h hr
    cases hsps : sps g v (spsFuel g) u [] with
    | nil => exact reach_sps_nonempty hr hsps
    | cons p ps =>
      rw [hsps] at h
      exact argminPath_cons_ne_none g p ps h
  · intro hr
    cases hsps : sps g v (spsFuel g) u [] with
    | nil => rfl
    | cons p ps =>
      have hp : p ∈ sps g v (spsFuel g) u [] := by
        rw [hsps]
        exact List.mem_cons_self p ps
      rcases sps_sound g v (spsFuel g) u [] p hp with ⟨hh, hl, hc⟩
      exact absurd (walk_reach p u v hh hl hc) hr

theorem shortestPath_sound (g : NXGraph) (u v : MinId) (path : List MinId)
    (h : g.shortestPath u v = some path) :
    path.head? = some u ∧ path.getLast? = some v ∧ List.Chain' (adjP g) path := by
  unfold NXGraph.shortestPath at h
  exact sps_sound g v (spsFuel g) u [] path (argminPath_mem g _ path h)

theorem scanGo_cons_none (md : MinId → MinId → W) (wts : List ((MinId × MinId) × W))
    (cur : MinId) (rest : List MinId) (prev : MinId) (wmin : W)
    (best : Option (MinId × MinId)) (s : DG) (hw : wOf wts (prev, cur) = none) :
    scanGo md wts (cur :: rest) prev wmin best s = scanGo md wts rest cur wmin best s := by
  conv_lhs => rw [scanGo]
  rw [hw]

theorem scanGo_cons_some (md : MinId → MinId → W) (wts : List ((MinId × MinId) × W))
    (cur : MinId) (rest : List MinId) (prev : MinId) (wmin : W)
    (best : Option (MinId × MinId)) (s : DG) (w : W) (hw : wOf wts (prev, cur) = some w) :
    scanGo md wts (cur :: rest) prev wmin best s =
      (if eps10 < w ∧ w < wmin then
        scanGo md wts rest cur w (some (prev, cur))
          (if eps6 < w then (s.getDist md prev cur).2 else s)
      else
        scanGo md wts rest cur wmin best
          (if eps6 < w then (s.getDist md prev cur).2 else s)) := by
  conv_lhs => rw [scanGo]
  rw [hw]

theorem scanGo_spec (md : MinId → MinId → W) (wts : List ((MinId × MinId) × W)) :
    ∀ (rest : List MinId) (prev : MinId) (wmin : W) (best : Option (MinId × MinId)) (s : DG),
      (∀ q, best = some q → ∃ wq, wOf wts q = some wq ∧ eps10 < wq ∧ wq = wmin) →
      ((scanGo md wts rest prev wmin best s).1 = none → best = none ∧
        ∀ p ∈ consecPairs (prev :: rest), ∀ w, wOf wts p = some w → eps10 < w → wmin ≤ w) ∧
      (∀ q, (scanGo md wts rest prev wmin best s).1 = some q →
        ∃ wq, wOf wts q = some wq ∧ eps10 < wq ∧ wq ≤ wmin ∧
          (q ∈ consecPairs (prev :: rest) ∨ best = some q) ∧
          (∀ p ∈ consecPairs (prev :: rest), ∀ w, wOf wts p = some w → eps10 < w → wq ≤ w)) := by
  intro rest
  induction rest with
  | nil =>
    intro prev wmin best s hb
    constructor
    · intro hres
      exact ⟨hres, fun p hp => absurd hp (fun hc => (List.not_mem_nil p) hc)⟩
    · intro q hres
      rcases hb q hres with ⟨wq, hwq, hgt, heq⟩
      exact ⟨wq, hwq, hgt, le_of_eq heq, Or.inr hres,
        fun p hp => absurd hp (fun hc => (List.not_mem_nil p) hc)⟩
  | cons cur rest' ih =>
    intro prev wmin best s hb
    have hcp : consecPairs (prev :: cur :: rest') =
        (prev, cur) :: consecPairs (cur :: rest') := rfl
    cases hw : wOf wts (prev, cur) with
    | none =>
      rw [scanGo_cons_none md wts cur rest' prev wmin best s hw]
      rcases ih cur wmin best s hb with ⟨hA, hB⟩
      constructor
      · intro hres
        rcases hA hres with ⟨hbn, hbound⟩
        refine ⟨hbn, ?_⟩
        intro p hp w hwp hgt
        rw [hcp] at hp
        rcases List.mem_cons.mp hp with rfl | hp'
        · rw [hw] at hwp
          exact Option.noConfusion hwp
        · exact hbound p hp' w hwp hgt
      · intro q hres
        rcases hB q hres with ⟨wq, h1, h2, h3, h4, h5⟩
        refine ⟨wq, h1, h2, h3, ?_, ?_⟩
        · rcases h4 with hm | hbq
          · exact Or.inl (List.mem_cons_of_mem _ hm)
          · exact Or.inr hbq
        · intro p hp w hwp hgt
          rw [hcp] at hp
          rcases List.mem_cons.mp hp with rfl | hp'
          · rw [hw] at hwp
            exact Option.noConfusion hwp
          · exact h5 p hp' w hwp hgt
    | some w =>
      rw [scanGo_cons_some md wts cur rest' prev wmin best s w hw]
      by_cases hcond : eps10 < w ∧ w < wmin
      · rw [if_pos hcond]
        have hb' : ∀ q, some (prev, cur) = some q →
            ∃ wq, wOf wts q = some wq ∧ eps10 < wq ∧ wq = w := by
          intro q hq
          have hpq : (prev, cur) = q := by simpa using hq
          rw [← hpq]
          exact ⟨w, hw, hcond.1, rfl⟩
        rcases ih cur w (some (prev, cur))
            (if eps6 < w then (s.getDist md prev cur).2 else s) hb' with ⟨hA, hB⟩
        constructor
        · intro hres
          rcases hA hres with ⟨habs, _⟩
          exact absurd habs (by simp)
        · intro q hres
          rcases hB q hres with ⟨wq, h1, h2, h3, h4, h5⟩
          refine ⟨wq, h1, h2, le_of_lt (lt_of_le_of_lt h3 hcond.2), ?_, ?_⟩
          · rcases h4 with hm | hbq
            · exact Or.inl (List.mem_cons_of_mem _ hm)
            · have hpq : (prev, cur) = q := by simpa using hbq
              rw [hcp, ← hpq]
              exact Or.inl (List.mem_cons_self _ _)
          · intro p hp w' hwp hgt
            rw [hcp] at hp
            rcases List.mem_cons.mp hp with rfl | hp'
            · rw [hw] at hwp
              have hww : w = w' := by simpa using hwp
              subst hww
              exact h3
            · exact h5 p hp' w' hwp hgt
      · rw [if_neg hcond]
        rcases ih cur wmin best
            (if eps6 < w then (s.getDist md prev cur).2 else s) hb with ⟨hA, hB⟩
        have hwge : eps10 < w → wmin ≤ w := by
          intro hgt
          by_contra hlt
          exact hcond ⟨hgt, lt_of_not_le hlt⟩
        constructor
        · intro hres
          rcases hA hres with ⟨hbn, hbound⟩
          refine ⟨hbn, ?_⟩
          intro p hp w' hwp hgt
          rw [hcp] at hp
          rcases List.mem_cons.mp hp with rfl | hp'
          · rw [hw] at hwp
            have hww : w = w' := by simpa using hwp
            subst hww
            exact hwge hgt
          · exact hbound p hp' w' hwp hgt
        · intro q hres
          rcases hB q hres with ⟨wq, h1, h2, h3, h4, h5⟩
          refine ⟨wq, h1, h2, h3, ?_, ?_⟩
          · rcases h4 with hm | hbq
            · exact Or.inl (List.mem_cons_of_mem _ hm)
            · exact Or.inr hbq
          · intro p hp w' hwp hgt
            rw [hcp] at hp
            rcases List.mem_cons.mp hp with rfl | hp'
            · rw [hw] at hwp
              have hww : w = w' := by simpa using hwp
              subst hww
              exact h3.trans (hwge hgt)
            · exact h5 p hp' w' hwp hgt

theorem getNextPair_some_eq (md : MinId → MinId → W) (s : DEC) (p0 : MinId)
    (prest : List MinId)
    (hsp : s.dgs.Gdist.shortestPath s.minstart s.minend = some (p0 :: prest)) :
    s.getNextPair md =
      ((scanGo md (getEdgeAttributes s.dgs.Gdist) prest p0 wBig none s.dgs).1,
       { s with dgs := (scanGo md (getEdgeAttributes s.dgs.Gdist) prest p0 wBig none s.dgs).2 }) := by
  unfold DEC.getNextPair
  rw [hsp]

/-- C3: `_getNextPair` computes the weighted shortest path between the two
target minima on the distance graph; when no path exists the lookup — and
hence the selector — signals failure by returning `none` (the `(None, None)`
of the Python), and a path is returned exactly when the targets are
connected in the distance graph.  On a returned path carrying at least one
consecutive pair whose weight lies strictly between the zero threshold
`1e-10` and the initial scan value `1e100`, the selector returns a
consecutive pair of the path whose weight is above the threshold and
minimal among all such pairs of the path (weights at or below `1e-10` —
"approximately zero", already-connected — are skipped). -/
theorem C3_next_pair_selection (md : MinId → MinId → W) (s : DEC) :
    (¬ Reach s.dgs.Gdist s.minstart s.minend → (s.getNextPair md).1 = none) ∧
    (Reach s.dgs.Gdist s.minstart s.minend →
      ∃ path, s.dgs.Gdist.shortestPath s.minstart s.minend = some path) ∧
    (∀ path, s.dgs.Gdist.shortestPath s.minstart s.minend = some path →
      (∃ p ∈ consecPairs path, ∃ w, wOf (getEdgeAttributes s.dgs.Gdist) p = some w ∧
        eps10 < w ∧ w < wBig) →
      ∃ q ∈ consecPairs path, (s.getNextPair md).1 = some q ∧
        ∃ wq, wOf (getEdgeAttributes s.dgs.Gdist) q = some wq ∧ eps10 < wq ∧
          ∀ p ∈ consecPairs path, ∀ w, wOf (getEdgeAttributes s.dgs.Gdist) p = some w →
            eps10 < w → wq ≤ w) := by
  refine ⟨?_, ?_, ?_⟩
  · intro hnr
    have hnone : s.dgs.Gdist.shortestPath s.minstart s.minend = none :=
      (shortestPath_none_iff _ _ _).mpr hnr
    unfold DEC.getNextPair
    rw [hnone]
  · intro hr
    cases hsp : s.dgs.Gdist.shortestPath s.minstart s.minend with
    | none => exact absurd hr ((shortestPath_none_iff _ _ _).mp hsp)
    | some path => exact ⟨path, rfl⟩
  · intro path hsp hex
    cases path with
    | nil =>
      rcases hex with ⟨p, hp, _⟩
      exact absurd hp (fun hc => (List.not_mem_nil p) hc)
    | cons p0 prest =>
      have hred := getNextPair_some_eq md s p0 prest hsp
      rcases scanGo_spec md (getEdgeAttributes s.dgs.Gdist) prest p0 wBig none s.dgs
        (fun q hq => Option.noConfusion hq) with ⟨hA, hB⟩
      cases hres : (scanGo md (getEdgeAttributes s.dgs.Gdist) prest p0 wBig none s.dgs).1 with
      | none =>
        rcases hA hres with ⟨_, hbound⟩
        rcases hex with ⟨p, hp, w, hwp, hgt, hlt⟩
        exact absurd (hbound p hp w hwp hgt) (not_le_of_lt hlt)
      | some q =>
        rcases hB q hres with ⟨wq, h1, h2, h3, h4, h5⟩
        have hmem : q ∈ consecPairs (p0 :: prest) := by
          rcases h4 with hm | hbq
          · exact hm
          · exact Option.noConfusion hbq
        refine ⟨q, hmem, ?_, wq, h1, h2, h5⟩
        rw [hred]
        exact hres

/-- On the fixture `sPath` the shortest path from `0` to `1` is `[0, 2, 1]`,
and the selector picks `(2, 1)` — the sole pair of positive weight (`4`),
skipping the already-connected zero-weight pair `(0, 2)`. -/
theorem C3_witness :
    sPath.dgs.Gdist.shortestPath sPath.minstart sPath.minend = some [0, 2, 1] ∧
    ∃ q ∈ consecPairs [0, 2, 1], (sPath.getNextPair mdC).1 = some q ∧
      ∃ wq, wOf (getEdgeAttributes sPath.dgs.Gdist) q = some wq ∧ eps10 < wq ∧
        ∀ p ∈ consecPairs [0, 2, 1], ∀ w,
          wOf (getEdgeAttributes sPath.dgs.Gdist) p = some w → eps10 < w → wq ≤ w := by
  refine ⟨by decide, ?_⟩
  exact (C3_next_pair_selection mdC sPath).2.2 [0, 2, 1] (by decide)
    ⟨(2, 1), by decide, 4, by decide, by decide, by decide⟩

end PG
